import Mathlib

/-!
# Verification of the qcm-med "tendance" pipeline

Shallow embedding of the two source modules

* `app/tendance/page.tsx` — filtering + aggregation of granular exam records
  (`filteredData`), per-module grouping by sub-discipline (`groupedBySubDisc`),
  and the SVG data builder (`buildSvgDataForModule`);
* `lib/tendance-svg-export.ts` — the pure SVG generator (`esc`, `truncateText`,
  layout constants, `generateTendanceSVG`).

Modelling conventions:
* JS strings are `List Char`; `localeCompare` is modelled as code-point
  lexicographic comparison (`lexCompare`).
* A JS `Map`/plain-object used as an insertion-ordered dictionary is an
  association list updated in place (`upsert`); a JS `Set` is a list with
  membership-guarded append (`addYear`).
* `Array.prototype.sort` with a consistent comparator is a stable sort and is
  modelled by `List.insertionSort` on the non-strict relation
  `comparator ≠ .gt` (stable sorts with the same consistent comparator agree).
* Numeric layout code uses exact integer/rational arithmetic (`Int.fdiv` for
  `Math.floor` of a division, `round` on `ℚ` for `Math.round`).
* The SVG serialisation is embedded structurally: the emitted document is
  represented by the user-derived text payloads and the layout quantities
  (y-cursor positions, bar geometry, per-block rows) that the string template
  interpolates; fixed markup that depends on no input is not repeated.
-/

set_option maxRecDepth 10000

open List

namespace QcmMed

/-- Code-point comparison of two characters; model of the character-level
order underlying the string comparisons in the source. -/
def charCompare (a b : Char) : Ordering :=
  if a.toNat < b.toNat then .lt else if b.toNat < a.toNat then .gt else .eq

/-- Lexicographic comparison of strings (model of `localeCompare` as used by
the sort comparators in `page.tsx`). -/
def lexCompare : List Char → List Char → Ordering
  | [], [] => .eq
  | [], _ :: _ => .lt
  | _ :: _, [] => .gt
  | a :: as, b :: bs =>
    match charCompare a b with
    | .eq => lexCompare as bs
    | o => o

/-- Sign of `b - a` as the comparators in `page.tsx` return it for the
descending count key (`b.question_count - a.question_count`). -/
def countCompareDesc (a b : Nat) : Ordering :=
  if a < b then .gt else if b < a then .lt else .eq

/-- `GranularEntry` of `page.tsx`: one raw exam-occurrence record. -/
structure GranularEntry where
  m : List Char
  sd : List Char
  c : List Char
  ey : Int
  et : List Char
  cnt : Nat
deriving DecidableEq

/-- The record filter of `filteredData` step 1: empty selection on an axis
means "match everything". -/
def survives (selectedExamTypes : List (List Char)) (selectedPromos : List Int)
    (e : GranularEntry) : Bool :=
  (selectedExamTypes.isEmpty || selectedExamTypes.contains e.et) &&
    (selectedPromos.isEmpty || selectedPromos.contains e.ey)

/-- The `"|||"` delimiter of the aggregation key. -/
def delim : List Char := ['|', '|', '|']

/-- The aggregation key `` `${e.m}|||${e.sd}|||${e.c}` `` of `filteredData`. -/
def keyOf (e : GranularEntry) : List Char := e.m ++ delim ++ e.sd ++ delim ++ e.c

/-- The value type stored in `aggMap`. -/
structure AggState where
  m : List Char
  sd : List Char
  c : List Char
  years : List Int
  count : Nat
deriving DecidableEq

/-- `item.years.add e.ey` on a JS `Set` (insertion-ordered, no duplicates). -/
def addYear (ys : List Int) (y : Int) : List Int :=
  if y ∈ ys then ys else ys ++ [y]

/-- Generic in-place insert-or-update on an insertion-ordered association
list; this is the access pattern `if (!map.has(k)) map.set(k, init); mutate
map.get(k)` used by both `aggMap` and the sub-discipline grouping. -/
def upsert {κ σ : Type} [DecidableEq κ] (k : κ) (f : σ → σ) (ini : σ) :
    List (κ × σ) → List (κ × σ)
  | [] => [(k, ini)]
  | (k', s) :: rest =>
    if k' = k then (k', f s) :: rest else (k', s) :: upsert k f ini rest

/-- Left fold of `upsert` over a record stream: each element `e` updates the
entry at `key e` with `upd e` (creating it from `ini e` first). -/
def upsertFold {β κ σ : Type} [DecidableEq κ] (key : β → κ) (upd : β → σ → σ)
    (ini : β → σ) (l : List β) : List (κ × σ) :=
  l.foldl (fun m e => upsert (key e) (upd e) (ini e) m) []

/-- The per-record mutation of an `aggMap` entry
(`item.years.add(e.ey); item.count += e.cnt`). -/
def aggUpd (e : GranularEntry) (s : AggState) : AggState :=
  ⟨s.m, s.sd, s.c, addYear s.years e.ey, s.count + e.cnt⟩

/-- The fresh `aggMap` entry for a record: created with empty `years` and
count `0`, then immediately updated with the record itself. -/
def aggIni (e : GranularEntry) : AggState := aggUpd e ⟨e.m, e.sd, e.c, [], 0⟩

/-- The `aggMap` of `filteredData` step 2 (key → aggregated state), with the
insertion order of a JS `Map`. -/
def aggMap (l : List GranularEntry) : List (List Char × AggState) :=
  upsertFold keyOf aggUpd aggIni l

/-- `CoursEntry` of `page.tsx`. -/
structure CoursEntry where
  module_name : List Char
  sub_discipline : List Char
  cours_topic : List Char
  question_count : Nat
  years_appeared : Nat
  exam_years_list : List Int
deriving DecidableEq

/-- `filteredData` step 3: convert an `aggMap` value to `CoursEntry`
(`exam_years_list` sorted ascending). -/
def toCours (v : AggState) : CoursEntry :=
  ⟨v.m, v.sd, v.c, v.count, v.years.length,
    List.insertionSort (fun a b : Int => a ≤ b) v.years⟩

/-- The comparator of `filteredData` step 3: module name, then
sub-discipline, then `question_count` descending. -/
def coursCompare (a b : CoursEntry) : Ordering :=
  if a.module_name ≠ b.module_name then
    lexCompare a.module_name b.module_name
  else if a.sub_discipline ≠ b.sub_discipline then
    lexCompare a.sub_discipline b.sub_discipline
  else countCompareDesc a.question_count b.question_count

/-- Non-strict order induced by `coursCompare`; `Array.prototype.sort` with
this comparator is stable, modelled by `insertionSort` on this relation. -/
def coursLE (a b : CoursEntry) : Prop := coursCompare a b ≠ .gt

instance : DecidableRel coursLE := fun a b =>
  inferInstanceAs (Decidable (coursCompare a b ≠ .gt))

/-- The aggregation output of `filteredData` before the final sort
(`Array.from(aggMap.values())` mapped to `CoursEntry`), in `aggMap`
insertion order. -/
def aggEntries (rawEntries : List GranularEntry) (selectedExamTypes : List (List Char))
    (selectedPromos : List Int) : List CoursEntry :=
  (aggMap (rawEntries.filter (survives selectedExamTypes selectedPromos))).map
    (fun p => toCours p.2)

/-- `filteredData` of `page.tsx`: filter, aggregate, convert, sort. -/
def filteredData (rawEntries : List GranularEntry) (selectedExamTypes : List (List Char))
    (selectedPromos : List Int) : List CoursEntry :=
  if rawEntries.isEmpty then []
  else List.insertionSort coursLE
    (aggEntries rawEntries selectedExamTypes selectedPromos)

/-- `filteredByModule` of `page.tsx`. -/
def filteredByModule (rawEntries : List GranularEntry) (selectedExamTypes : List (List Char))
    (selectedPromos : List Int) (selectedModule : List Char) : List CoursEntry :=
  (filteredData rawEntries selectedExamTypes selectedPromos).filter
    (fun d => d.module_name == selectedModule)

/-- The sub-discipline grouping (`groups[d.sub_discipline].push(d)`),
an insertion-ordered dictionary of lists. -/
def groupsOf (l : List CoursEntry) : List (List Char × List CoursEntry) :=
  upsertFold (fun d => d.sub_discipline) (fun d es => es ++ [d]) (fun d => [d]) l

/-- The fixed sub-discipline priority list `order` of `page.tsx`. -/
def order : List (List Char) :=
  ["Anatomie".data, "Histologie".data, "Physiologie".data, "Biochimie".data,
    "Biophysique".data]

/-- `order.indexOf s`; `none` models the `-1` sentinel. -/
def idxOfAux (s : List Char) : List (List Char) → Option Nat
  | [] => none
  | x :: xs => if x = s then some 0 else (idxOfAux s xs).map (· + 1)

/-- Priority index of a sub-discipline name in the fixed list. -/
def orderIdx (s : List Char) : Option Nat := idxOfAux s order

/-- The sub-discipline comparator of `groupedBySubDisc` /
`buildSvgDataForModule`: priority-list index ascending, unlisted names after
all listed ones, lexicographic among unlisted. -/
def subDiscCompare (a b : List Char) : Ordering :=
  match orderIdx a, orderIdx b with
  | none, none => lexCompare a b
  | none, some _ => .gt
  | some _, none => .lt
  | some ia, some ib => if ia < ib then .lt else if ib < ia then .gt else .eq

/-- Non-strict order induced by `subDiscCompare` on (name, entries) pairs. -/
def subDiscLE (p q : List Char × List CoursEntry) : Prop :=
  subDiscCompare p.1 q.1 ≠ .gt

instance : DecidableRel subDiscLE := fun p q =>
  inferInstanceAs (Decidable (subDiscCompare p.1 q.1 ≠ .gt))

/-- `groupedBySubDisc` of `page.tsx`: group the selected module's entries by
sub-discipline and sort the groups with `subDiscCompare`. -/
def groupedBySubDisc (rawEntries : List GranularEntry) (selectedExamTypes : List (List Char))
    (selectedPromos : List Int) (selectedModule : List Char) :
    List (List Char × List CoursEntry) :=
  List.insertionSort subDiscLE
    (groupsOf (filteredByModule rawEntries selectedExamTypes selectedPromos selectedModule))

/-- `SvgCourseEntry` of `tendance-svg-export.ts`. -/
structure SvgCourseEntry where
  cours_topic : List Char
  question_count : Nat
deriving DecidableEq

/-- `SvgSubDiscGroup` of `tendance-svg-export.ts`. -/
structure SvgSubDiscGroup where
  sub_discipline : List Char
  entries : List SvgCourseEntry
deriving DecidableEq

/-- `SvgExportOptions` of `tendance-svg-export.ts`. -/
structure SvgExportOptions where
  moduleName : List Char
  totalQuestions : Nat
  examYearsRange : List Char
  totalExamYears : Nat
  subDiscGroups : List SvgSubDiscGroup
deriving DecidableEq

/-- `buildSvgDataForModule` of `page.tsx` (the closed-over `filteredData`,
`examYearsRange` and `totalExamYears` are passed explicitly; an absent
`allowedSubDiscs` argument behaves like `[]`). -/
def buildSvgDataForModule (data : List CoursEntry) (examYearsRange : List Char)
    (totalExamYears : Nat) (modName : List Char) (allowedSubDiscs : List (List Char)) :
    SvgExportOptions :=
  let modEntries0 := data.filter (fun d => d.module_name == modName)
  let modEntries :=
    if allowedSubDiscs.isEmpty then modEntries0
    else modEntries0.filter (fun d => allowedSubDiscs.contains d.sub_discipline)
  let totalQ := (modEntries.map (fun e => e.question_count)).sum
  let sorted := List.insertionSort subDiscLE (groupsOf modEntries)
  { moduleName := modName
    totalQuestions := totalQ
    examYearsRange := examYearsRange
    totalExamYears := totalExamYears
    subDiscGroups := sorted.map (fun p =>
      ⟨p.1, p.2.map (fun e => ⟨e.cours_topic, e.question_count⟩)⟩) }

/-! ## SVG generator (`tendance-svg-export.ts`) -/

/-- `MAX_COURSES` constant. -/
def MAX_COURSES : Nat := 5

/-- One elementary `String.prototype.replace(/c/g, r)` with a one-character
pattern. -/
def replaceChar (c : Char) (r : List Char) : List Char → List Char
  | [] => []
  | x :: xs => (if x = c then r else [x]) ++ replaceChar c r xs

/-- `esc` of `tendance-svg-export.ts`: the five sequential global replaces,
in source order (`&`, `<`, `>`, `"`, `'`). -/
def esc (text : List Char) : List Char :=
  replaceChar '\'' "&apos;".data
    (replaceChar '"' "&quot;".data
      (replaceChar '>' "&gt;".data
        (replaceChar '<' "&lt;".data
          (replaceChar '&' "&amp;".data text))))

/-- The entity (or identity) image of one character under `esc`. -/
def entityOf (x : Char) : List Char :=
  if x = '&' then "&amp;".data
  else if x = '<' then "&lt;".data
  else if x = '>' then "&gt;".data
  else if x = '"' then "&quot;".data
  else if x = '\'' then "&apos;".data
  else [x]

/-- `truncateText` of `tendance-svg-export.ts`. -/
def truncateText (text : List Char) (maxChars : Nat) : List Char :=
  if text.length ≤ maxChars then text else text.take (maxChars - 1) ++ ['…']

/-- Canvas width `W`. -/
def W : Nat := 1080
/-- Canvas height `H`. -/
def H : Nat := 1080
/-- Padding `PAD`. -/
def PAD : Nat := 48
/-- The running y cursor after the header and divider: starts at `PAD`,
`y += 44` after the brand row, `y += 60` after the module row, `y += 28`
after the divider. -/
def headerEndY : Nat := ((PAD + 44) + 60) + 28
/-- `footerReserve`. -/
def footerReserve : Nat := 60
/-- `availableHeight = H - y - footerReserve` at the start of the body. -/
def availableHeight : Int := (H : Int) - headerEndY - footerReserve
/-- `groupHeaderH`. -/
def groupHeaderH : Nat := 32
/-- `courseRowH`. -/
def courseRowH : Nat := 36
/-- `groupGap`. -/
def groupGap : Nat := 20
/-- `contentW = W - PAD * 2`. -/
def contentW : Nat := W - PAD * 2
/-- The bar area width `contentW - 80`. -/
def barAreaW : Int := (contentW : Int) - 80

/-- `numGroups = subDiscGroups.length` (note: all groups, empty or not). -/
def numGroups (gs : List SvgSubDiscGroup) : Nat := gs.length

/-- `totalGroupHeaders = numGroups * groupHeaderH`. -/
def totalGroupHeaders (gs : List SvgSubDiscGroup) : Int :=
  (numGroups gs : Int) * groupHeaderH

/-- `totalGaps = Math.max(0, numGroups - 1) * groupGap`. -/
def totalGaps (gs : List SvgSubDiscGroup) : Int :=
  max 0 ((numGroups gs : Int) - 1) * groupGap

/-- `spaceForCourses = availableHeight - totalGroupHeaders - totalGaps`. -/
def spaceForCourses (gs : List SvgSubDiscGroup) : Int :=
  availableHeight - totalGroupHeaders gs - totalGaps gs

/-- `totalCourseSlots = Σ min(entries.length, MAX_COURSES)`. -/
def totalCourseSlots (gs : List SvgSubDiscGroup) : Nat :=
  gs.foldl (fun sum g => sum + min g.entries.length MAX_COURSES) 0

/-- `dynamicMaxCourses`: `Math.max(2, Math.floor(spaceForCourses /
courseRowH / numGroups))` when there is at least one course slot, else
`MAX_COURSES` (this branch also avoids the `0 / 0` of an empty group list).
`Math.floor` of the double division equals the flooring integer division by
`courseRowH * numGroups`. -/
def dynamicMaxCourses (gs : List SvgSubDiscGroup) : Int :=
  if 0 < totalCourseSlots gs then
    max 2 (Int.fdiv (spaceForCourses gs) ((courseRowH : Int) * numGroups gs))
  else (MAX_COURSES : Int)

/-- `effectiveMax = Math.min(MAX_COURSES, dynamicMaxCourses)`. -/
def effectiveMax (gs : List SvgSubDiscGroup) : Int :=
  min (MAX_COURSES : Int) (dynamicMaxCourses gs)

/-- `maxQ = displayEntries[0]?.question_count || 1` (the `|| 1` also turns a
leading zero count into 1). -/
def blockMaxQ (displayEntries : List SvgCourseEntry) : Nat :=
  match displayEntries with
  | [] => 1
  | e :: _ => if e.question_count = 0 then 1 else e.question_count

/-- `barPct = Math.max(8, (entry.question_count / maxQ) * 100)` in exact
rational arithmetic. -/
def rowBarPct (maxQ q : Nat) : ℚ := max 8 ((q : ℚ) / (maxQ : ℚ) * 100)

/-- `barW = Math.round((contentW - 80) * (barPct / 100))`. -/
def rowBarW (maxQ q : Nat) : Int := round ((barAreaW : ℚ) * (rowBarPct maxQ q / 100))

/-- The escaped, truncated course label placed in a row's text node:
`esc(truncateText(entry.cours_topic, 50))`. -/
def rowLabel (t : List Char) : List Char := esc (truncateText t 50)

/-- One rendered course row: rank number, bar geometry, escaped truncated
label, and the count shown at the right edge. -/
structure RowRender where
  rank : Nat
  barPct : ℚ
  barW : Int
  label : List Char
  count : Nat

/-- One rendered sub-discipline block: the group header (escaped name and
`— Top N` counter) and its course rows, with the y-interval it occupies. -/
structure GroupRender where
  sub_discipline : List Char
  headerLabel : List Char
  topN : Nat
  yStart : Nat
  rows : List RowRender
  yEnd : Nat

/-- The body loop iteration for one group: slice to `effectiveMax`, compute
`maxQ`, emit the header (consuming `groupHeaderH`) and one row per displayed
entry (consuming `courseRowH` each). -/
def groupRender (gs : List SvgSubDiscGroup) (y : Nat) (g : SvgSubDiscGroup) : GroupRender :=
  let displayEntries := g.entries.take (effectiveMax gs).toNat
  let maxQ := blockMaxQ displayEntries
  { sub_discipline := g.sub_discipline
    headerLabel := esc g.sub_discipline
    topN := displayEntries.length
    yStart := y
    rows := displayEntries.enum.map (fun p =>
      ⟨p.1 + 1, rowBarPct maxQ p.2.question_count, rowBarW maxQ p.2.question_count,
        rowLabel p.2.cours_topic, p.2.question_count⟩)
    yEnd := y + groupHeaderH + courseRowH * displayEntries.length }

/-- The `subDiscGroups.forEach` body loop: renders every group in order,
adding `groupGap` after each group except the last; returns the rendered
blocks and the final y cursor. -/
def renderBodyAux (gs : List SvgSubDiscGroup) :
    List SvgSubDiscGroup → Nat → List GroupRender × Nat
  | [], y => ([], y)
  | g :: rest, y =>
    let gr := groupRender gs y g
    let y2 := gr.yEnd + (if rest.isEmpty then 0 else groupGap)
    let res := renderBodyAux gs rest y2
    (gr :: res.1, res.2)

/-- The whole body of `generateTendanceSVG`, starting at the post-divider
cursor. -/
def renderBody (gs : List SvgSubDiscGroup) : List GroupRender × Nat :=
  renderBodyAux gs gs headerEndY

/-- Structural embedding of the document produced by `generateTendanceSVG`:
the user-derived text payloads interpolated into the markup and the rendered
body blocks. -/
structure SvgRendered where
  moduleNameText : List Char
  statsCount : Nat
  promosText : List Char
  totalExamYears : Nat
  body : List GroupRender
  footerYearsText : List Char
  yFinal : Nat

/-- `generateTendanceSVG` of `tendance-svg-export.ts` (structural form; the
module name, the header and footer year ranges, the sub-discipline names and
the truncated topic labels are passed through `esc` exactly as in the
template literals of the source). -/
def generateTendanceSVG (opts : SvgExportOptions) : SvgRendered :=
  { moduleNameText := esc opts.moduleName
    statsCount := opts.totalQuestions
    promosText := esc opts.examYearsRange
    totalExamYears := opts.totalExamYears
    body := (renderBody opts.subDiscGroups).1
    footerYearsText := esc opts.examYearsRange
    yFinal := (renderBody opts.subDiscGroups).2 }

/-- Every user-derived text payload embedded in the rendered document, in
document order: header module name, header year range, each block's header
label, each row's label, footer year range. -/
def userPayloads (opts : SvgExportOptions) : List (List Char) :=
  let d := generateTendanceSVG opts
  [d.moduleNameText, d.promosText] ++ d.body.map (fun gr => gr.headerLabel) ++
    (d.body.map (fun gr => gr.rows.map (fun r => r.label))).flatten ++
    [d.footerYearsText]

/-- The corresponding raw user-derived strings before escaping (topic labels
after truncation, which precedes escaping in the source). -/
def rawUserTexts (opts : SvgExportOptions) : List (List Char) :=
  [opts.moduleName, opts.examYearsRange] ++
    opts.subDiscGroups.map (fun g => g.sub_discipline) ++
    (opts.subDiscGroups.map (fun g =>
      (g.entries.take (effectiveMax opts.subDiscGroups).toNat).map
        (fun e => truncateText e.cours_topic 50))).flatten ++
    [opts.examYearsRange]

/-! ## Specification-side definitions (used to state the claims) -/

/-- First index in `l` at which `p` holds (`l.length` if none). -/
def firstIdxBy {α : Type} (p : α → Bool) : List α → Nat
  | [] => 0
  | x :: xs => if p x then 0 else firstIdxBy p xs + 1

/-- Index of the first occurrence of an aggregated entry's
(module, sub-discipline, topic) triple in a record stream. -/
def firstTripleIdx (l : List GranularEntry) (a : CoursEntry) : Nat :=
  firstIdxBy (fun r =>
    decide (r.m = a.module_name ∧ r.sd = a.sub_discipline ∧ r.c = a.cours_topic)) l

/-- The three-key order the spec asserts for the aggregation output: module
name ascending, then sub-discipline ascending, then count descending. -/
def specSortedLE (a b : CoursEntry) : Prop :=
  lexCompare a.module_name b.module_name = .lt ∨
    (a.module_name = b.module_name ∧
      (lexCompare a.sub_discipline b.sub_discipline = .lt ∨
        (a.sub_discipline = b.sub_discipline ∧
          b.question_count ≤ a.question_count)))

/-- The subgroup order the spec asserts: listed subgroups by priority index
ascending, unlisted after all listed, lexicographic among unlisted. -/
def specSubgroupOrder (a b : List Char) : Prop :=
  match orderIdx a, orderIdx b with
  | some i, some j => i ≤ j
  | some _, none => True
  | none, some _ => False
  | none, none => lexCompare a b ≠ .gt

/-- Modelled from the spec: the per-block cap as claim C3 words it, with
`numBlocks` the count of NON-EMPTY blocks (the source instead divides by the
count of all blocks). -/
def specLayoutCap (gs : List SvgSubDiscGroup) : Int :=
  let n : Int := ((gs.filter (fun g => !g.entries.isEmpty)).length : Int)
  let space : Int := availableHeight - n * groupHeaderH - max 0 (n - 1) * groupGap
  min (MAX_COURSES : Int) (max 2 (Int.fdiv space ((courseRowH : Int) * n)))

end QcmMed

namespace QcmMed

/-! ## Basic facts about the comparators -/

theorem char_eq_of_toNat_eq {a b : Char} (h : a.toNat = b.toNat) : a = b :=
  Char.eq_of_val_eq (UInt32.ext h)

theorem charCompare_lt_iff {a b : Char} : charCompare a b = .lt ↔ a.toNat < b.toNat := by
  unfold charCompare
  split_ifs with h1 h2
  · simp [h1]
  · constructor
    · intro h; exact absurd h (by decide)
    · intro h; omega
  · constructor
    · intro h; exact absurd h (by decide)
    · intro h; omega

theorem charCompare_gt_iff {a b : Char} : charCompare a b = .gt ↔ b.toNat < a.toNat := by
  unfold charCompare
  split_ifs with h1 h2
  · constructor
    · intro h; exact absurd h (by decide)
    · intro h; omega
  · simp [h2]
  · constructor
    · intro h; exact absurd h (by decide)
    · intro h; omega

theorem charCompare_eq_iff {a b : Char} : charCompare a b = .eq ↔ a = b := by
  unfold charCompare
  split_ifs with h1 h2
  · constructor
    · intro h; exact absurd h (by decide)
    · intro h; subst h; omega
  · constructor
    · intro h; exact absurd h (by decide)
    · intro h; subst h; omega
  · constructor
    · intro _; exact char_eq_of_toNat_eq (by omega)
    · intro _; rfl

theorem lexCompare_eq_iff : ∀ {s t : List Char}, lexCompare s t = .eq ↔ s = t
  | [], [] => by simp [lexCompare]
  | [], _ :: _ => by simp [lexCompare]
  | _ :: _, [] => by simp [lexCompare]
  | a :: as, b :: bs => by
    show (match charCompare a b with | .eq => lexCompare as bs | o => o) = .eq ↔
      a :: as = b :: bs
    cases hab : charCompare a b with
    | lt =>
      constructor
      · intro hc; exact Ordering.noConfusion hc
      · intro he
        injection he with hb hbs
        subst hb
        have haa : charCompare a a = .eq := charCompare_eq_iff.mpr rfl
        rw [haa] at hab
        exact Ordering.noConfusion hab
    | eq =>
      have h : a = b := charCompare_eq_iff.mp hab
      subst h
      show lexCompare as bs = .eq ↔ a :: as = a :: bs
      rw [lexCompare_eq_iff]
      simp
    | gt =>
      constructor
      · intro hc; exact Ordering.noConfusion hc
      · intro he
        injection he with hb hbs
        subst hb
        have haa : charCompare a a = .eq := charCompare_eq_iff.mpr rfl
        rw [haa] at hab
        exact Ordering.noConfusion hab

theorem lexCompare_gt_iff_lt : ∀ {s t : List Char},
    lexCompare s t = .gt ↔ lexCompare t s = .lt
  | [], [] => by simp [lexCompare]
  | [], _ :: _ => by simp [lexCompare]
  | _ :: _, [] => by simp [lexCompare]
  | a :: as, b :: bs => by
    show (match charCompare a b with | .eq => lexCompare as bs | o => o) = .gt ↔
      (match charCompare b a with | .eq => lexCompare bs as | o => o) = .lt
    cases hab : charCompare a b with
    | lt =>
      have h' : charCompare b a = .gt := charCompare_gt_iff.mpr (charCompare_lt_iff.mp hab)
      rw [h']
      constructor <;> (intro hc; exact Ordering.noConfusion hc)
    | eq =>
      have h : a = b := charCompare_eq_iff.mp hab
      subst h
      have haa : charCompare a a = .eq := charCompare_eq_iff.mpr rfl
      rw [haa]
      exact lexCompare_gt_iff_lt
    | gt =>
      have h' : charCompare b a = .lt := charCompare_lt_iff.mpr (charCompare_gt_iff.mp hab)
      rw [h']
      constructor <;> (intro _; rfl)

theorem lexCompare_lt_trans : ∀ {s t u : List Char},
    lexCompare s t = .lt → lexCompare t u = .lt → lexCompare s u = .lt
  | [], [], _, h1, _ => absurd h1 (by simp [lexCompare])
  | [], _ :: _, [], _, h2 => absurd h2 (by simp [lexCompare])
  | [], _ :: _, _ :: _, _, _ => by simp [lexCompare]
  | _ :: _, [], _, h1, _ => absurd h1 (by simp [lexCompare])
  | _ :: _, _ :: _, [], _, h2 => absurd h2 (by simp [lexCompare])
  | a :: as, b :: bs, c :: cs, h1, h2 => by
    have h1' : (match charCompare a b with | .eq => lexCompare as bs | o => o) = .lt := h1
    have h2' : (match charCompare b c with | .eq => lexCompare bs cs | o => o) = .lt := h2
    show (match charCompare a c with | .eq => lexCompare as cs | o => o) = .lt
    cases hab : charCompare a b with
    | gt => rw [hab] at h1'; exact absurd h1' (fun hc => Ordering.noConfusion hc)
    | lt =>
      cases hbc : charCompare b c with
      | gt => rw [hbc] at h2'; exact absurd h2' (fun hc => Ordering.noConfusion hc)
      | lt =>
        have hac : charCompare a c = .lt := by
          rw [charCompare_lt_iff] at hab hbc ⊢; omega
        rw [hac]
      | eq =>
        have hb : b = c := charCompare_eq_iff.mp hbc
        subst hb
        rw [hab]
    | eq =>
      have ha : a = b := charCompare_eq_iff.mp hab
      subst ha
      have haa : charCompare a a = .eq := charCompare_eq_iff.mpr rfl
      rw [haa] at h1'
      cases hac : charCompare a c with
      | gt => rw [hac] at h2'; exact absurd h2' (fun hc => Ordering.noConfusion hc)
      | lt => rfl
      | eq => rw [hac] at h2'; exact lexCompare_lt_trans h1' h2'

theorem lexCompare_ne_gt_trans {s t u : List Char}
    (h1 : lexCompare s t ≠ .gt) (h2 : lexCompare t u ≠ .gt) : lexCompare s u ≠ .gt := by
  cases hst : lexCompare s t with
  | gt => exact absurd hst h1
  | eq =>
    have h : s = t := lexCompare_eq_iff.mp hst
    subst h; exact h2
  | lt =>
    cases htu : lexCompare t u with
    | gt => exact absurd htu h2
    | eq =>
      have h : t = u := lexCompare_eq_iff.mp htu
      subst h
      rw [hst]
      intro hc; exact Ordering.noConfusion hc
    | lt =>
      rw [lexCompare_lt_trans hst htu]
      intro hc; exact Ordering.noConfusion hc

theorem countCompareDesc_eq_iff {a b : Nat} : countCompareDesc a b = .eq ↔ a = b := by
  unfold countCompareDesc
  split_ifs with h1 h2
  · constructor
    · intro h; exact absurd h (by decide)
    · intro h; omega
  · constructor
    · intro h; exact absurd h (by decide)
    · intro h; omega
  · constructor
    · intro _; omega
    · intro _; rfl

theorem countCompareDesc_ne_gt_iff {a b : Nat} : countCompareDesc a b ≠ .gt ↔ b ≤ a := by
  unfold countCompareDesc
  split_ifs with h1 h2
  · constructor
    · intro h; exact absurd rfl h
    · intro h; omega
  · constructor
    · intro _; omega
    · intro _; decide
  · constructor
    · intro _; omega
    · intro _; decide

end QcmMed

namespace QcmMed

theorem countCompareDesc_gt_iff {a b : Nat} : countCompareDesc a b = .gt ↔ a < b := by
  unfold countCompareDesc
  split_ifs with h1 h2
  · simp [h1]
  · constructor
    · intro h; exact absurd h (by decide)
    · intro h; omega
  · constructor
    · intro h; exact absurd h (by decide)
    · intro h; omega

theorem countCompareDesc_lt_iff {a b : Nat} : countCompareDesc a b = .lt ↔ b < a := by
  unfold countCompareDesc
  split_ifs with h1 h2
  · constructor
    · intro h; exact absurd h (by decide)
    · intro h; omega
  · simp [h2]
  · constructor
    · intro h; exact absurd h (by decide)
    · intro h; omega

theorem coursCompare_eq_iff {a b : CoursEntry} :
    coursCompare a b = .eq ↔
      a.module_name = b.module_name ∧ a.sub_discipline = b.sub_discipline ∧
        a.question_count = b.question_count := by
  unfold coursCompare
  split_ifs with h1 h2
  · constructor
    · intro h; exact absurd (lexCompare_eq_iff.mp h) h1
    · rintro ⟨hm, _, _⟩; exact absurd hm h1
  · constructor
    · intro h; exact absurd (lexCompare_eq_iff.mp h) h2
    · rintro ⟨_, hs, _⟩; exact absurd hs h2
  · rw [countCompareDesc_eq_iff]
    constructor
    · intro h; exact ⟨not_not.mp h1, not_not.mp h2, h⟩
    · rintro ⟨_, _, h⟩; exact h

theorem coursLE_iff_spec {a b : CoursEntry} : coursLE a b ↔ specSortedLE a b := by
  unfold coursLE coursCompare specSortedLE
  split_ifs with h1 h2
  · constructor
    · intro h
      left
      cases hl : lexCompare a.module_name b.module_name with
      | gt => exact absurd hl h
      | eq => exact absurd (lexCompare_eq_iff.mp hl) h1
      | lt => rfl
    · rintro (h | ⟨hm, _⟩)
      · rw [h]; decide
      · exact absurd hm h1
  · have hm : a.module_name = b.module_name := not_not.mp h1
    constructor
    · intro h
      right
      refine ⟨hm, ?_⟩
      left
      cases hl : lexCompare a.sub_discipline b.sub_discipline with
      | gt => exact absurd hl h
      | eq => exact absurd (lexCompare_eq_iff.mp hl) h2
      | lt => rfl
    · rintro (h | ⟨_, h | ⟨hs, _⟩⟩)
      · rw [hm] at h
        rw [lexCompare_eq_iff.mpr rfl] at h
        exact absurd h (by decide)
      · rw [h]; decide
      · exact absurd hs h2
  · have hm : a.module_name = b.module_name := not_not.mp h1
    have hs : a.sub_discipline = b.sub_discipline := not_not.mp h2
    rw [countCompareDesc_ne_gt_iff]
    constructor
    · intro h
      exact Or.inr ⟨hm, Or.inr ⟨hs, h⟩⟩
    · rintro (h | ⟨_, h | ⟨_, h⟩⟩)
      · rw [hm] at h
        rw [lexCompare_eq_iff.mpr rfl] at h
        exact absurd h (by decide)
      · rw [hs] at h
        rw [lexCompare_eq_iff.mpr rfl] at h
        exact absurd h (by decide)
      · exact h

theorem specSortedLE_trans {a b c : CoursEntry} (h1 : specSortedLE a b)
    (h2 : specSortedLE b c) : specSortedLE a c := by
  unfold specSortedLE at h1 h2 ⊢
  rcases h1 with h1 | ⟨hm1, h1⟩
  · rcases h2 with h2 | ⟨hm2, _⟩
    · exact Or.inl (lexCompare_lt_trans h1 h2)
    · rw [hm2] at h1; exact Or.inl h1
  · rcases h2 with h2 | ⟨hm2, h2⟩
    · rw [← hm1] at h2; exact Or.inl h2
    · refine Or.inr ⟨hm1.trans hm2, ?_⟩
      rcases h1 with h1 | ⟨hs1, h1⟩
      · rcases h2 with h2 | ⟨hs2, _⟩
        · exact Or.inl (lexCompare_lt_trans h1 h2)
        · rw [hs2] at h1; exact Or.inl h1
      · rcases h2 with h2 | ⟨hs2, h2⟩
        · rw [← hs1] at h2; exact Or.inl h2
        · exact Or.inr ⟨hs1.trans hs2, le_trans h2 h1⟩

theorem coursLE_trans : ∀ a b c : CoursEntry, coursLE a b → coursLE b c → coursLE a c :=
  fun _ _ _ h1 h2 =>
    coursLE_iff_spec.mpr (specSortedLE_trans (coursLE_iff_spec.mp h1) (coursLE_iff_spec.mp h2))

theorem countCompareDesc_gt_to_lt {a b : Nat} (h : countCompareDesc a b = .gt) :
    countCompareDesc b a = .lt :=
  countCompareDesc_lt_iff.mpr (countCompareDesc_gt_iff.mp h)

theorem coursCompare_gt_to_lt {a b : CoursEntry} (h : coursCompare a b = .gt) :
    coursCompare b a = .lt := by
  unfold coursCompare at h ⊢
  by_cases hm : a.module_name = b.module_name
  · by_cases hs : a.sub_discipline = b.sub_discipline
    · rw [if_neg (not_not_intro hm), if_neg (not_not_intro hs)] at h
      rw [if_neg (not_not_intro hm.symm), if_neg (not_not_intro hs.symm)]
      exact countCompareDesc_gt_to_lt h
    · rw [if_neg (not_not_intro hm), if_pos hs] at h
      rw [if_neg (not_not_intro hm.symm), if_pos (fun hc => hs hc.symm)]
      exact lexCompare_gt_iff_lt.mp h
  · rw [if_pos hm] at h
    rw [if_pos (fun hc => hm hc.symm)]
    exact lexCompare_gt_iff_lt.mp h

theorem coursLE_total : ∀ a b : CoursEntry, coursLE a b ∨ coursLE b a := by
  intro a b
  cases h : coursCompare a b with
  | lt => left; unfold coursLE; rw [h]; decide
  | eq => left; unfold coursLE; rw [h]; decide
  | gt => right; unfold coursLE; rw [coursCompare_gt_to_lt h]; decide

theorem subDiscCompare_none_none {a b : List Char} (ha : orderIdx a = none)
    (hb : orderIdx b = none) : subDiscCompare a b = lexCompare a b := by
  unfold subDiscCompare; rw [ha, hb]

theorem subDiscCompare_none_some {a b : List Char} {j : Nat} (ha : orderIdx a = none)
    (hb : orderIdx b = some j) : subDiscCompare a b = .gt := by
  unfold subDiscCompare; rw [ha, hb]

theorem subDiscCompare_some_none {a b : List Char} {i : Nat} (ha : orderIdx a = some i)
    (hb : orderIdx b = none) : subDiscCompare a b = .lt := by
  unfold subDiscCompare; rw [ha, hb]

theorem subDiscCompare_some_some {a b : List Char} {i j : Nat} (ha : orderIdx a = some i)
    (hb : orderIdx b = some j) :
    subDiscCompare a b = (if i < j then Ordering.lt else if j < i then .gt else .eq) := by
  unfold subDiscCompare; rw [ha, hb]

theorem subDiscCompare_gt_to_lt {a b : List Char} (h : subDiscCompare a b = .gt) :
    subDiscCompare b a = .lt := by
  cases ha : orderIdx a with
  | none =>
    cases hb : orderIdx b with
    | none =>
      rw [subDiscCompare_none_none ha hb] at h
      rw [subDiscCompare_none_none hb ha]
      exact lexCompare_gt_iff_lt.mp h
    | some j =>
      rw [subDiscCompare_some_none hb ha]
  | some i =>
    cases hb : orderIdx b with
    | none =>
      rw [subDiscCompare_some_none ha hb] at h
      exact absurd h (by decide)
    | some j =>
      rw [subDiscCompare_some_some ha hb] at h
      rw [subDiscCompare_some_some hb ha]
      have hji : j < i := by
        split_ifs at h with u v
        exact v
      rw [if_pos hji]

theorem subDiscLE_total : ∀ p q : List Char × List CoursEntry, subDiscLE p q ∨ subDiscLE q p := by
  intro p q
  cases h : subDiscCompare p.1 q.1 with
  | lt => left; unfold subDiscLE; rw [h]; decide
  | eq => left; unfold subDiscLE; rw [h]; decide
  | gt => right; unfold subDiscLE; rw [subDiscCompare_gt_to_lt h]; decide

theorem subDiscCompare_ne_gt_trans {a b c : List Char} (h1 : subDiscCompare a b ≠ .gt)
    (h2 : subDiscCompare b c ≠ .gt) : subDiscCompare a c ≠ .gt := by
  cases ha : orderIdx a with
  | none =>
    cases hb : orderIdx b with
    | none =>
      cases hc : orderIdx c with
      | none =>
        rw [subDiscCompare_none_none ha hb] at h1
        rw [subDiscCompare_none_none hb hc] at h2
        rw [subDiscCompare_none_none ha hc]
        exact lexCompare_ne_gt_trans h1 h2
      | some k =>
        rw [subDiscCompare_none_some hb hc] at h2
        exact absurd rfl h2
    | some j =>
      rw [subDiscCompare_none_some ha hb] at h1
      exact absurd rfl h1
  | some i =>
    cases hc : orderIdx c with
    | none =>
      rw [subDiscCompare_some_none ha hc]
      decide
    | some k =>
      cases hb : orderIdx b with
      | none =>
        rw [subDiscCompare_none_some hb hc] at h2
        exact absurd rfl h2
      | some j =>
        have hij : i ≤ j := by
          by_contra hc'
          apply h1
          rw [subDiscCompare_some_some ha hb, if_neg (by omega), if_pos (by omega)]
        have hjk : j ≤ k := by
          by_contra hc'
          apply h2
          rw [subDiscCompare_some_some hb hc, if_neg (by omega), if_pos (by omega)]
        rw [subDiscCompare_some_some ha hc]
        split_ifs with u v
        · decide
        · exact absurd v (by omega)
        · decide

theorem subDiscLE_trans : ∀ p q r : List Char × List CoursEntry,
    subDiscLE p q → subDiscLE q r → subDiscLE p r :=
  fun _ _ _ h1 h2 => subDiscCompare_ne_gt_trans h1 h2

theorem subDiscLE_to_spec {a b : List Char} (h : subDiscCompare a b ≠ .gt) :
    specSubgroupOrder a b := by
  unfold specSubgroupOrder
  cases ha : orderIdx a with
  | none =>
    cases hb : orderIdx b with
    | none =>
      show lexCompare a b ≠ .gt
      rw [subDiscCompare_none_none ha hb] at h
      exact h
    | some j =>
      show False
      apply h
      rw [subDiscCompare_none_some ha hb]
  | some i =>
    cases hb : orderIdx b with
    | none => trivial
    | some j =>
      show i ≤ j
      by_contra hc
      apply h
      rw [subDiscCompare_some_some ha hb, if_neg (by omega), if_pos (by omega)]

theorem coursLE_count_le {a b : CoursEntry} (hm : a.module_name = b.module_name)
    (hs : a.sub_discipline = b.sub_discipline) (h : coursLE a b) :
    b.question_count ≤ a.question_count := by
  unfold coursLE coursCompare at h
  rw [if_neg (not_not_intro hm), if_neg (not_not_intro hs)] at h
  exact countCompareDesc_ne_gt_iff.mp h

theorem coursLE_of_compare_eq {a b : CoursEntry} (h : coursCompare a b = .eq) :
    coursLE a b ∧ coursLE b a := by
  have h' : coursCompare b a = .eq := by
    rcases coursCompare_eq_iff.mp h with ⟨hm, hs, hq⟩
    exact coursCompare_eq_iff.mpr ⟨hm.symm, hs.symm, hq.symm⟩
  constructor
  · unfold coursLE; rw [h]; decide
  · unfold coursLE; rw [h']; decide

end QcmMed

namespace QcmMed

/-! ## Generic facts about insertion-ordered dictionaries (`upsert` folds) -/

section UpsertLemmas

variable {β κ σ : Type} [DecidableEq κ]

theorem upsert_keys_of_mem (k : κ) (f : σ → σ) (ini : σ) :
    ∀ m : List (κ × σ), k ∈ m.map Prod.fst →
      (upsert k f ini m).map Prod.fst = m.map Prod.fst
  | [], h => by simp at h
  | (k', s) :: rest, h => by
    unfold upsert
    by_cases hk : k' = k
    · rw [if_pos hk]; simp
    · rw [if_neg hk]
      have hr : k ∈ rest.map Prod.fst := by
        simp only [List.map_cons, List.mem_cons] at h
        rcases h with h | h
        · exact absurd h.symm hk
        · exact h
      simp only [List.map_cons]
      rw [upsert_keys_of_mem k f ini rest hr]

theorem upsert_keys_of_not_mem (k : κ) (f : σ → σ) (ini : σ) :
    ∀ m : List (κ × σ), k ∉ m.map Prod.fst →
      (upsert k f ini m).map Prod.fst = m.map Prod.fst ++ [k]
  | [], _ => by simp [upsert]
  | (k', s) :: rest, h => by
    unfold upsert
    have hk : k' ≠ k := by
      intro hc; exact h (by simp [hc])
    rw [if_neg hk]
    have hr : k ∉ rest.map Prod.fst := fun hc => h (by simp [hc])
    simp only [List.map_cons, List.cons_append]
    rw [upsert_keys_of_not_mem k f ini rest hr]

theorem mem_upsert (k : κ) (f : σ → σ) (ini : σ) :
    ∀ m : List (κ × σ), (m.map Prod.fst).Nodup → ∀ q, q ∈ upsert k f ini m →
      (q ∈ m ∧ q.1 ≠ k) ∨ (∃ s, (k, s) ∈ m ∧ q = (k, f s)) ∨
        (q = (k, ini) ∧ k ∉ m.map Prod.fst)
  | [], _, q, hq => by
    simp [upsert] at hq
    exact Or.inr (Or.inr ⟨hq, by simp⟩)
  | (k', s) :: rest, hnd, q, hq => by
    unfold upsert at hq
    by_cases hk : k' = k
    · rw [if_pos hk] at hq
      subst hk
      rcases List.mem_cons.mp hq with rfl | hq'
      · exact Or.inr (Or.inl ⟨s, by simp, rfl⟩)
      · have hnotin : k' ∉ rest.map Prod.fst := by
          simp only [List.map_cons, List.nodup_cons] at hnd
          exact hnd.1
        refine Or.inl ⟨List.mem_cons_of_mem _ hq', ?_⟩
        intro hc
        apply hnotin
        rw [← hc]
        exact List.mem_map_of_mem Prod.fst hq'
    · rw [if_neg hk] at hq
      rcases List.mem_cons.mp hq with rfl | hq'
      · exact Or.inl ⟨List.mem_cons_self _ _, fun hc => hk hc⟩
      · have hndr : (rest.map Prod.fst).Nodup := by
          simp only [List.map_cons, List.nodup_cons] at hnd
          exact hnd.2
        rcases mem_upsert k f ini rest hndr q hq' with ⟨hm, hne⟩ | ⟨s', hs', rfl⟩ | ⟨rfl, hnm⟩
        · exact Or.inl ⟨List.mem_cons_of_mem _ hm, hne⟩
        · exact Or.inr (Or.inl ⟨s', List.mem_cons_of_mem _ hs', rfl⟩)
        · refine Or.inr (Or.inr ⟨rfl, ?_⟩)
          simp only [List.map_cons, List.mem_cons]
          rintro (h | h)
          · exact hk h.symm
          · exact hnm h

theorem upsertFold_append (key : β → κ) (upd : β → σ → σ) (ini : β → σ)
    (l : List β) (b : β) :
    upsertFold key upd ini (l ++ [b]) =
      upsert (key b) (upd b) (ini b) (upsertFold key upd ini l) := by
  unfold upsertFold
  rw [List.foldl_append]
  rfl

end UpsertLemmas

/-! ## Facts about `firstIdxBy` -/

theorem firstIdxBy_le_length {α : Type} (p : α → Bool) :
    ∀ l : List α, firstIdxBy p l ≤ l.length
  | [] => Nat.le_refl 0
  | x :: xs => by
    unfold firstIdxBy
    by_cases h : p x = true
    · rw [if_pos h]; simp
    · rw [if_neg h]
      simp only [List.length_cons]
      exact Nat.succ_le_succ (firstIdxBy_le_length p xs)

theorem firstIdxBy_lt_length {α : Type} (p : α → Bool) :
    ∀ (l : List α) (x : α), x ∈ l → p x = true → firstIdxBy p l < l.length
  | [], x, hx, _ => absurd hx (List.not_mem_nil x)
  | x' :: xs, x, hx, hp => by
    unfold firstIdxBy
    by_cases h : p x' = true
    · rw [if_pos h]; simp
    · rw [if_neg h]
      rcases List.mem_cons.mp hx with rfl | hx'
      · exact absurd hp h
      · simp only [List.length_cons]
        exact Nat.succ_lt_succ (firstIdxBy_lt_length p xs x hx' hp)

theorem firstIdxBy_append_of_lt {α : Type} (p : α → Bool) :
    ∀ (l l2 : List α), firstIdxBy p l < l.length →
      firstIdxBy p (l ++ l2) = firstIdxBy p l
  | [], _, h => by simp [firstIdxBy] at h
  | x :: xs, l2, h => by
    rw [List.cons_append]
    by_cases hp : p x = true
    · unfold firstIdxBy
      rw [if_pos hp, if_pos hp]
    · have h' : firstIdxBy p xs < xs.length := by
        simp only [firstIdxBy, if_neg hp, List.length_cons] at h
        omega
      unfold firstIdxBy
      rw [if_neg hp, if_neg hp]
      rw [firstIdxBy_append_of_lt p xs l2 h']

theorem firstIdxBy_cons {α : Type} (p : α → Bool) (x : α) (xs : List α) :
    firstIdxBy p (x :: xs) = if p x = true then 0 else firstIdxBy p xs + 1 := rfl

theorem firstIdxBy_append_of_none {α : Type} (p : α → Bool) :
    ∀ (l l2 : List α), (∀ x ∈ l, ¬ p x = true) →
      firstIdxBy p (l ++ l2) = l.length + firstIdxBy p l2
  | [], l2, _ => by simp [firstIdxBy]
  | x :: xs, l2, h => by
    rw [List.cons_append, firstIdxBy_cons, if_neg (h x (List.mem_cons_self _ _)),
      firstIdxBy_append_of_none p xs l2 (fun y hy => h y (List.mem_cons_of_mem _ hy)),
      List.length_cons]
    omega

theorem firstIdxBy_of_decomp {α : Type} (p : α → Bool) (l1 : List α) (e0 : α) (l2 : List α)
    (hn : ∀ x ∈ l1, ¬ p x = true) (hp : p e0 = true) :
    firstIdxBy p (l1 ++ e0 :: l2) = l1.length := by
  rw [firstIdxBy_append_of_none p l1 _ hn, firstIdxBy_cons, if_pos hp]
  omega

theorem filter_eq_cons_decomp {α : Type} (p : α → Bool) :
    ∀ (l : List α) (e0 : α) (rest : List α), l.filter p = e0 :: rest →
      ∃ l1 l2, l = l1 ++ e0 :: l2 ∧ (∀ x ∈ l1, ¬ p x = true) ∧ p e0 = true ∧
        rest = l2.filter p
  | [], _, _, h => by simp at h
  | x :: xs, e0, rest, h => by
    by_cases hp : p x = true
    · rw [List.filter_cons_of_pos hp] at h
      injection h with h1 h2
      subst h1
      exact ⟨[], xs, by simp, by simp, hp, h2.symm⟩
    · rw [List.filter_cons_of_neg ?hneg] at h
      case hneg => simpa using hp
      obtain ⟨l1, l2, hl, hn, hp0, hr⟩ := filter_eq_cons_decomp p xs e0 rest h
      refine ⟨x :: l1, l2, by rw [hl]; rfl, ?_, hp0, hr⟩
      intro y hy
      rcases List.mem_cons.mp hy with rfl | hy'
      · exact hp
      · exact hn y hy'

end QcmMed

namespace QcmMed

/-- The four structural invariants of an `upsert` fold over a stream `l`:
keys are distinct; every stream element's key appears; each entry's value is
the fold of the updates over exactly the stream elements with its key (whose
first element created the entry); and entries are ordered by the first
occurrence of their key in the stream. -/
theorem upsertFold_invariant {β κ σ : Type} [DecidableEq κ]
    (key : β → κ) (upd : β → σ → σ) (ini : β → σ) :
    ∀ l : List β,
      ((upsertFold key upd ini l).map Prod.fst).Nodup ∧
      (∀ e ∈ l, key e ∈ (upsertFold key upd ini l).map Prod.fst) ∧
      (∀ q ∈ upsertFold key upd ini l, ∃ e0 rest,
        l.filter (fun e => decide (key e = q.1)) = e0 :: rest ∧
        q.2 = rest.foldl (fun s x => upd x s) (ini e0)) ∧
      ((upsertFold key upd ini l).map Prod.fst).Pairwise
        (fun k k' => firstIdxBy (fun e => decide (key e = k)) l <
          firstIdxBy (fun e => decide (key e = k')) l) := by
  intro l
  induction l using List.reverseRecOn with
  | nil =>
    refine ⟨by simp [upsertFold], by simp, ?_, by simp [upsertFold]⟩
    intro q hq
    simp [upsertFold] at hq
  | append_singleton l b ih =>
    obtain ⟨hnd, hcov, hval, hord⟩ := ih
    rw [upsertFold_append]
    set M := upsertFold key upd ini l with hM
    have hlt : ∀ kk, kk ∈ M.map Prod.fst →
        firstIdxBy (fun e => decide (key e = kk)) l < l.length := by
      intro kk hkk
      rcases List.mem_map.mp hkk with ⟨q, hqM, hfst⟩
      obtain ⟨e0, rest, hf, _⟩ := hval q hqM
      have he0 : e0 ∈ l.filter (fun e => decide (key e = q.1)) := by rw [hf]; simp
      have he0l : e0 ∈ l := (List.mem_filter.mp he0).1
      have hpe0 : (decide (key e0 = q.1)) = true := (List.mem_filter.mp he0).2
      subst hfst
      exact firstIdxBy_lt_length _ l e0 he0l hpe0
    have hupg : (M.map Prod.fst).Pairwise
        (fun k k' => firstIdxBy (fun e => decide (key e = k)) (l ++ [b]) <
          firstIdxBy (fun e => decide (key e = k')) (l ++ [b])) := by
      apply List.pairwise_iff_forall_sublist.mpr
      intro k k' hsub
      have hk : k ∈ M.map Prod.fst := hsub.subset (by simp)
      have hk' : k' ∈ M.map Prod.fst := hsub.subset (by simp)
      rw [firstIdxBy_append_of_lt _ l [b] (hlt k hk),
        firstIdxBy_append_of_lt _ l [b] (hlt k' hk')]
      exact List.pairwise_iff_forall_sublist.mp hord hsub
    by_cases hmem : key b ∈ M.map Prod.fst
    · have hkeys := upsert_keys_of_mem (key b) (upd b) (ini b) M hmem
      refine ⟨?_, ?_, ?_, ?_⟩
      · rw [hkeys]; exact hnd
      · intro e he
        rw [hkeys]
        rcases List.mem_append.mp he with he | he
        · exact hcov e he
        · simp at he; subst he; exact hmem
      · intro q hq
        rcases mem_upsert (key b) (upd b) (ini b) M hnd q hq with
          ⟨hqM, hne⟩ | ⟨s, hsM, rfl⟩ | ⟨rfl, hnm⟩
        · obtain ⟨e0, rest, hf, hv⟩ := hval q hqM
          refine ⟨e0, rest, ?_, hv⟩
          rw [List.filter_append, hf]
          have hbf : List.filter (fun e => decide (key e = q.1)) [b] = [] := by
            simp only [List.filter_cons, List.filter_nil]
            rw [if_neg]
            simp only [decide_eq_true_eq]
            exact fun hc => hne hc.symm
          rw [hbf, List.append_nil]
        · obtain ⟨e0, rest, hf, hv⟩ := hval (key b, s) hsM
          dsimp only at hf hv ⊢
          refine ⟨e0, rest ++ [b], ?_, ?_⟩
          · rw [List.filter_append, hf]
            have hbf : List.filter (fun e => decide (key e = key b)) [b] = [b] := by
              simp
            rw [hbf, List.cons_append]
          · rw [List.foldl_append, ← hv]
            rfl
        · exact absurd hmem hnm
      · rw [hkeys]; exact hupg
    · have hkeys := upsert_keys_of_not_mem (key b) (upd b) (ini b) M hmem
      have hbfilter : l.filter (fun e => decide (key e = key b)) = [] := by
        cases hf : l.filter (fun e => decide (key e = key b)) with
        | nil => rfl
        | cons e0 rest =>
          have he0 : e0 ∈ l.filter (fun e => decide (key e = key b)) := by rw [hf]; simp
          have he0l : e0 ∈ l := (List.mem_filter.mp he0).1
          have hpe0 : key e0 = key b := of_decide_eq_true (List.mem_filter.mp he0).2
          have := hcov e0 he0l
          rw [hpe0] at this
          exact absurd this hmem
      have hnotl : ∀ x ∈ l, ¬ (decide (key x = key b)) = true := by
        intro x hx hpx
        have : x ∈ l.filter (fun e => decide (key e = key b)) := List.mem_filter.mpr ⟨hx, hpx⟩
        rw [hbfilter] at this
        exact absurd this (List.not_mem_nil x)
      have hbpos : firstIdxBy (fun e => decide (key e = key b)) (l ++ [b]) = l.length := by
        rw [firstIdxBy_append_of_none _ l [b] hnotl, firstIdxBy_cons]
        rw [if_pos (by simp)]
        omega
      refine ⟨?_, ?_, ?_, ?_⟩
      · rw [hkeys]
        have hdisj : List.Disjoint (M.map Prod.fst) [key b] := by
          intro x hx hxb
          simp at hxb
          subst hxb
          exact hmem hx
        exact hnd.append (by simp) hdisj
      · intro e he
        rw [hkeys]
        rcases List.mem_append.mp he with he | he
        · exact List.mem_append_left _ (hcov e he)
        · simp at he; subst he; exact List.mem_append_right _ (by simp)
      · intro q hq
        rcases mem_upsert (key b) (upd b) (ini b) M hnd q hq with
          ⟨hqM, hne⟩ | ⟨s, hsM, rfl⟩ | ⟨rfl, _⟩
        · obtain ⟨e0, rest, hf, hv⟩ := hval q hqM
          refine ⟨e0, rest, ?_, hv⟩
          rw [List.filter_append, hf]
          have hbf : List.filter (fun e => decide (key e = q.1)) [b] = [] := by
            simp only [List.filter_cons, List.filter_nil]
            rw [if_neg]
            simp only [decide_eq_true_eq]
            exact fun hc => hne hc.symm
          rw [hbf, List.append_nil]
        · exact absurd (List.mem_map_of_mem Prod.fst hsM) hmem
        · dsimp only
          refine ⟨b, [], ?_, rfl⟩
          rw [List.filter_append, hbfilter, List.nil_append]
          simp
      · rw [hkeys]
        refine List.pairwise_append.mpr ⟨hupg, by simp, ?_⟩
        intro k hk k' hk'
        simp at hk'
        subst hk'
        rw [hbpos, firstIdxBy_append_of_lt _ l [b] (hlt k hk)]
        exact hlt k hk

/-! ## Stability of the sort model -/

theorem pair_or_pair_sublist {α : Type} {a b : α} :
    ∀ {l : List α}, a ∈ l → b ∈ l → a ≠ b → [a, b] <+ l ∨ [b, a] <+ l := by
  intro l
  induction l with
  | nil => intro ha; exact absurd ha (List.not_mem_nil a)
  | cons x t ih =>
    intro ha hb hne
    rcases List.mem_cons.mp ha with rfl | ha'
    · rcases List.mem_cons.mp hb with rfl | hb'
      · exact absurd rfl hne
      · exact Or.inl (List.Sublist.cons₂ a (List.singleton_sublist.mpr hb'))
    · rcases List.mem_cons.mp hb with rfl | hb'
      · exact Or.inr (List.Sublist.cons₂ b (List.singleton_sublist.mpr ha'))
      · rcases ih ha' hb' hne with h | h
        · exact Or.inl (h.cons x)
        · exact Or.inr (h.cons x)

theorem not_both_orders {α : Type} {a b : α} :
    ∀ {l : List α}, l.Nodup → [a, b] <+ l → [b, a] <+ l → a ≠ b → False := by
  intro l
  induction l with
  | nil => intro _ h1; exact absurd h1 (by simp)
  | cons x t ih =>
    intro hnd h1 h2 hne
    have hx : x ∉ t := (List.nodup_cons.mp hnd).1
    have hndt := (List.nodup_cons.mp hnd).2
    cases h1 with
    | cons _ h1' =>
      cases h2 with
      | cons _ h2' => exact ih hndt h1' h2' hne
      | cons₂ _ h2' => exact hx (h1'.subset (by simp))
    | cons₂ _ h1' =>
      cases h2 with
      | cons _ h2' => exact hx (h2'.subset (by simp))
      | cons₂ _ h2' => exact hne rfl

theorem sublist_orig_of_tie {α : Type} (r : α → α → Prop) [DecidableRel r] {l : List α}
    (hnd : l.Nodup) {a b : α} (hs : [a, b] <+ List.insertionSort r l)
    (_hab : r a b) (hba : r b a) : [a, b] <+ l := by
  have hperm := List.perm_insertionSort r l
  have hnds : (List.insertionSort r l).Nodup := hperm.nodup_iff.mpr hnd
  have hne : a ≠ b := List.pairwise_iff_forall_sublist.mp hnds hs
  have ha : a ∈ l := hperm.mem_iff.mp (hs.subset (by simp))
  have hb : b ∈ l := hperm.mem_iff.mp (hs.subset (by simp))
  rcases pair_or_pair_sublist ha hb hne with h | h
  · exact h
  · exact (not_both_orders hnds hs (List.pair_sublist_insertionSort hba h) hne).elim

end QcmMed

namespace QcmMed

/-! ## Aggregation-specific consequences -/

theorem aggFoldVal_triple : ∀ (rest : List GranularEntry) (s0 : AggState),
    (rest.foldl (fun s x => aggUpd x s) s0).m = s0.m ∧
    (rest.foldl (fun s x => aggUpd x s) s0).sd = s0.sd ∧
    (rest.foldl (fun s x => aggUpd x s) s0).c = s0.c
  | [], _ => ⟨rfl, rfl, rfl⟩
  | x :: xs, s0 => by
    simp only [List.foldl_cons]
    exact aggFoldVal_triple xs (aggUpd x s0)

/-- Each `aggMap` entry's key is the `"|||"`-encoding of its own stored
triple, and the first occurrence of its triple in the stream coincides with
the first occurrence of its key. -/
theorem aggMap_entry_facts (fl : List GranularEntry) (q : List Char × AggState)
    (hq : q ∈ aggMap fl) :
    q.1 = q.2.m ++ delim ++ q.2.sd ++ delim ++ q.2.c ∧
    firstTripleIdx fl (toCours q.2) = firstIdxBy (fun e => decide (keyOf e = q.1)) fl := by
  obtain ⟨hnd, hcov, hval, hord⟩ := upsertFold_invariant keyOf aggUpd aggIni fl
  obtain ⟨e0, rest, hf, hv⟩ := hval q hq
  obtain ⟨l1, l2, hl, hn, hp0, _⟩ := filter_eq_cons_decomp _ fl e0 rest hf
  have htriple : q.2.m = e0.m ∧ q.2.sd = e0.sd ∧ q.2.c = e0.c := by
    rw [hv]
    exact aggFoldVal_triple rest (aggIni e0)
  have hkey : keyOf e0 = q.1 := of_decide_eq_true hp0
  have htri : firstTripleIdx fl (toCours q.2) =
      firstIdxBy (fun r => decide (r.m = q.2.m ∧ r.sd = q.2.sd ∧ r.c = q.2.c)) fl := rfl
  refine ⟨?_, ?_⟩
  · rw [← hkey]
    unfold keyOf
    rw [htriple.1, htriple.2.1, htriple.2.2]
  · rw [htri, hl]
    rw [firstIdxBy_of_decomp (fun r => decide (r.m = q.2.m ∧ r.sd = q.2.sd ∧ r.c = q.2.c))
        l1 e0 l2 ?tnone ?thit,
      firstIdxBy_of_decomp (fun e => decide (keyOf e = q.1)) l1 e0 l2 hn hp0]
    case thit =>
      rw [htriple.1, htriple.2.1, htriple.2.2]
      simp
    case tnone =>
      intro x hx hpx
      apply hn x hx
      simp only [decide_eq_true_eq] at hpx
      rw [htriple.1, htriple.2.1, htriple.2.2] at hpx
      have hkx : keyOf x = keyOf e0 := by
        unfold keyOf
        rw [hpx.1, hpx.2.1, hpx.2.2]
      simp only [decide_eq_true_eq]
      exact hkx.trans hkey

theorem aggEntries_nodup (rawEntries : List GranularEntry)
    (selectedExamTypes : List (List Char)) (selectedPromos : List Int) :
    (aggEntries rawEntries selectedExamTypes selectedPromos).Nodup := by
  set fl := rawEntries.filter (survives selectedExamTypes selectedPromos) with hfl
  obtain ⟨hnd, _, _, _⟩ := upsertFold_invariant keyOf aggUpd aggIni fl
  have hM : (aggMap fl).Pairwise (fun p q => toCours p.2 ≠ toCours q.2) := by
    apply List.pairwise_iff_forall_sublist.mpr
    intro p q hsub
    have hp : p ∈ aggMap fl := hsub.subset (by simp)
    have hq : q ∈ aggMap fl := hsub.subset (by simp)
    have hsubk : [p.1, q.1] <+ (aggMap fl).map Prod.fst := by
      have := hsub.map Prod.fst
      simpa using this
    have hne : p.1 ≠ q.1 := List.pairwise_iff_forall_sublist.mp hnd hsubk
    intro hc
    apply hne
    have hpf := (aggMap_entry_facts fl p hp).1
    have hqf := (aggMap_entry_facts fl q hq).1
    have h1 : p.2.m = q.2.m := congrArg CoursEntry.module_name hc
    have h2 : p.2.sd = q.2.sd := congrArg CoursEntry.sub_discipline hc
    have h3 : p.2.c = q.2.c := congrArg CoursEntry.cours_topic hc
    rw [hpf, hqf, h1, h2, h3]
  unfold aggEntries
  rw [← hfl]
  exact hM.map _ (fun a b h => h)

theorem aggEntries_pairwise_firstTripleIdx (rawEntries : List GranularEntry)
    (selectedExamTypes : List (List Char)) (selectedPromos : List Int) :
    (aggEntries rawEntries selectedExamTypes selectedPromos).Pairwise
      (fun a b =>
        firstTripleIdx (rawEntries.filter (survives selectedExamTypes selectedPromos)) a <
        firstTripleIdx (rawEntries.filter (survives selectedExamTypes selectedPromos)) b) := by
  set fl := rawEntries.filter (survives selectedExamTypes selectedPromos) with hfl
  obtain ⟨_, _, _, hord⟩ := upsertFold_invariant keyOf aggUpd aggIni fl
  have hM : (aggMap fl).Pairwise
      (fun p q => firstTripleIdx fl (toCours p.2) < firstTripleIdx fl (toCours q.2)) := by
    apply List.pairwise_iff_forall_sublist.mpr
    intro p q hsub
    have hp : p ∈ aggMap fl := hsub.subset (by simp)
    have hq : q ∈ aggMap fl := hsub.subset (by simp)
    have hsubk : [p.1, q.1] <+ (aggMap fl).map Prod.fst := by
      have := hsub.map Prod.fst
      simpa using this
    rw [(aggMap_entry_facts fl p hp).2, (aggMap_entry_facts fl q hq).2]
    exact List.pairwise_iff_forall_sublist.mp hord hsubk
  unfold aggEntries
  rw [← hfl]
  exact hM.map _ (fun a b h => h)

theorem upsert_agg_countSum (e : GranularEntry) :
    ∀ m : List (List Char × AggState),
      ((upsert (keyOf e) (aggUpd e) (aggIni e) m).map (fun q => q.2.count)).sum =
        ((m.map (fun q => q.2.count)).sum) + e.cnt
  | [] => by simp [upsert, aggIni, aggUpd]
  | (k', s) :: rest => by
    unfold upsert
    by_cases hk : k' = keyOf e
    · rw [if_pos hk]
      simp only [List.map_cons, List.sum_cons, aggUpd]
      omega
    · rw [if_neg hk]
      simp only [List.map_cons, List.sum_cons]
      rw [upsert_agg_countSum e rest]
      omega

theorem aggFold_countSum :
    ∀ (l : List GranularEntry) (acc : List (List Char × AggState)),
      (((l.foldl (fun m e => upsert (keyOf e) (aggUpd e) (aggIni e) m) acc).map
        (fun q => q.2.count)).sum) =
        ((acc.map (fun q => q.2.count)).sum) + (l.map (fun e => e.cnt)).sum
  | [], acc => by simp
  | e :: es, acc => by
    simp only [List.foldl_cons, List.map_cons, List.sum_cons]
    rw [aggFold_countSum es _, upsert_agg_countSum e acc]
    omega

theorem aggMap_countSum (l : List GranularEntry) :
    ((aggMap l).map (fun q => q.2.count)).sum = (l.map (fun e => e.cnt)).sum := by
  unfold aggMap upsertFold
  rw [aggFold_countSum l []]
  simp

/-! ## Grouping-specific consequences -/

theorem foldl_append_acc {α : Type} :
    ∀ (rest : List α) (init : List α),
      rest.foldl (fun s x => s ++ [x]) init = init ++ rest
  | [], init => by simp
  | x :: xs, init => by
    simp only [List.foldl_cons]
    rw [foldl_append_acc xs (init ++ [x])]
    simp

theorem groupsOf_val (l : List CoursEntry) (q : List Char × List CoursEntry)
    (hq : q ∈ groupsOf l) :
    q.2 = l.filter (fun d => decide (d.sub_discipline = q.1)) ∧ q.2 ≠ [] := by
  obtain ⟨_, _, hval, _⟩ :=
    upsertFold_invariant (fun d : CoursEntry => d.sub_discipline)
      (fun d es => es ++ [d]) (fun d => [d]) l
  obtain ⟨e0, rest, hf, hv⟩ := hval q hq
  have hv' : q.2 = e0 :: rest := by
    rw [hv, foldl_append_acc]
    rfl
  have hf' : List.filter (fun d => decide (d.sub_discipline = q.1)) l = e0 :: rest := hf
  exact ⟨by rw [hv', hf'], by rw [hv']; exact List.cons_ne_nil e0 rest⟩

/-! ## Renderer-specific lemmas -/

theorem renderBodyAux_mem (gs : List SvgSubDiscGroup) :
    ∀ (rest : List SvgSubDiscGroup) (y : Nat) (gr : GroupRender),
      gr ∈ (renderBodyAux gs rest y).1 → ∃ g ∈ rest, ∃ y', gr = groupRender gs y' g
  | [], y, gr, h => by simp [renderBodyAux] at h
  | g :: t, y, gr, h => by
    simp only [renderBodyAux] at h
    rcases List.mem_cons.mp h with rfl | h'
    · exact ⟨g, List.mem_cons_self _ _, y, rfl⟩
    · obtain ⟨g', hg', y', hy'⟩ := renderBodyAux_mem gs t _ gr h'
      exact ⟨g', List.mem_cons_of_mem _ hg', y', hy'⟩

theorem groupRender_rows_labels (gs : List SvgSubDiscGroup) (y : Nat) (g : SvgSubDiscGroup) :
    (groupRender gs y g).rows.map (fun r => r.label) =
      (g.entries.take (effectiveMax gs).toNat).map
        (fun e => esc (truncateText e.cours_topic 50)) := by
  unfold groupRender
  simp only []
  rw [List.map_map]
  have h1 : ((fun r : RowRender => r.label) ∘
      (fun p : Nat × SvgCourseEntry =>
        (⟨p.1 + 1, rowBarPct (blockMaxQ (g.entries.take (effectiveMax gs).toNat))
            p.2.question_count,
          rowBarW (blockMaxQ (g.entries.take (effectiveMax gs).toNat)) p.2.question_count,
          rowLabel p.2.cours_topic, p.2.question_count⟩ : RowRender))) =
      (fun p : Nat × SvgCourseEntry => rowLabel p.2.cours_topic) := rfl
  rw [h1]
  have h2 : (fun p : Nat × SvgCourseEntry => rowLabel p.2.cours_topic) =
      ((fun e : SvgCourseEntry => rowLabel e.cours_topic) ∘ Prod.snd) := rfl
  rw [h2, ← List.map_map, List.enum_map_snd]
  rfl

theorem groupRender_rows_length (gs : List SvgSubDiscGroup) (y : Nat) (g : SvgSubDiscGroup) :
    (groupRender gs y g).rows.length = min (effectiveMax gs).toNat g.entries.length := by
  unfold groupRender
  simp [List.length_take]

theorem renderBodyAux_headerLabels (gs : List SvgSubDiscGroup) :
    ∀ (rest : List SvgSubDiscGroup) (y : Nat),
      ((renderBodyAux gs rest y).1).map (fun gr => gr.headerLabel) =
        rest.map (fun g => esc g.sub_discipline)
  | [], _ => rfl
  | g :: t, y => by
    simp only [renderBodyAux, List.map_cons]
    rw [renderBodyAux_headerLabels gs t _]
    rfl

theorem renderBodyAux_rowLabels (gs : List SvgSubDiscGroup) :
    ∀ (rest : List SvgSubDiscGroup) (y : Nat),
      ((renderBodyAux gs rest y).1).map (fun gr => gr.rows.map (fun r => r.label)) =
        rest.map (fun g => (g.entries.take (effectiveMax gs).toNat).map
          (fun e => esc (truncateText e.cours_topic 50)))
  | [], _ => rfl
  | g :: t, y => by
    simp only [renderBodyAux, List.map_cons]
    rw [renderBodyAux_rowLabels gs t _, groupRender_rows_labels]

end QcmMed

namespace QcmMed

/-! ## Escaping lemmas -/

theorem replaceChar_append (c : Char) (r : List Char) :
    ∀ s t : List Char, replaceChar c r (s ++ t) = replaceChar c r s ++ replaceChar c r t
  | [], _ => rfl
  | x :: xs, t => by
    show (if x = c then r else [x]) ++ replaceChar c r (xs ++ t) =
      ((if x = c then r else [x]) ++ replaceChar c r xs) ++ replaceChar c r t
    rw [replaceChar_append c r xs t, List.append_assoc]

theorem esc_cons (x : Char) (xs : List Char) : esc (x :: xs) = entityOf x ++ esc xs := by
  show esc ([x] ++ xs) = entityOf x ++ esc xs
  unfold esc
  rw [replaceChar_append, replaceChar_append, replaceChar_append, replaceChar_append,
    replaceChar_append]
  congr 1
  by_cases h1 : x = '&'
  · subst h1; decide
  by_cases h2 : x = '<'
  · subst h2; decide
  by_cases h3 : x = '>'
  · subst h3; decide
  by_cases h4 : x = '"'
  · subst h4; decide
  by_cases h5 : x = '\''
  · subst h5; decide
  simp [replaceChar, entityOf, h1, h2, h3, h4, h5]

theorem esc_eq_flatten : ∀ s : List Char, esc s = (s.map entityOf).flatten
  | [] => rfl
  | x :: xs => by
    rw [esc_cons, List.map_cons, List.flatten_cons, esc_eq_flatten xs]

theorem esc_no_reserved : ∀ s : List Char,
    (esc s).filter (fun c => c == '<' || c == '>' || c == '"' || c == '\'') = []
  | [] => rfl
  | x :: xs => by
    rw [esc_cons, List.filter_append, esc_no_reserved xs, List.append_nil]
    by_cases h1 : x = '&'
    · subst h1; decide
    by_cases h2 : x = '<'
    · subst h2; decide
    by_cases h3 : x = '>'
    · subst h3; decide
    by_cases h4 : x = '"'
    · subst h4; decide
    by_cases h5 : x = '\''
    · subst h5; decide
    rw [show entityOf x = [x] from by simp [entityOf, h1, h2, h3, h4, h5]]
    simp only [List.filter_cons, List.filter_nil]
    rw [if_neg]
    simp only [Bool.or_eq_true, beq_iff_eq]
    rintro (((hc | hc) | hc) | hc) <;> first
      | exact h2 hc | exact h3 hc | exact h4 hc | exact h5 hc

theorem userPayloads_eq (opts : SvgExportOptions) :
    userPayloads opts = (rawUserTexts opts).map esc := by
  unfold userPayloads rawUserTexts generateTendanceSVG renderBody
  simp only [List.map_append, List.map_cons, List.map_nil]
  rw [renderBodyAux_headerLabels, renderBodyAux_rowLabels]
  simp only [List.map_flatten, List.map_map, Function.comp_def]

end QcmMed

namespace QcmMed

/-! ## Helper lemmas for the layout claims -/

theorem sortGroups_pairwise_spec (l : List CoursEntry) :
    (List.insertionSort subDiscLE (groupsOf l)).Pairwise
      (fun p q => specSubgroupOrder p.1 q.1) := by
  haveI : IsTotal (List Char × List CoursEntry) subDiscLE := ⟨subDiscLE_total⟩
  haveI : IsTrans (List Char × List CoursEntry) subDiscLE := ⟨subDiscLE_trans⟩
  have hpw : (List.insertionSort subDiscLE (groupsOf l)).Pairwise subDiscLE :=
    List.sorted_insertionSort subDiscLE _
  exact hpw.imp (fun h => subDiscLE_to_spec h)

theorem slots_foldl_mono :
    ∀ (t : List SvgSubDiscGroup) (acc : Nat),
      acc ≤ t.foldl (fun s x => s + min x.entries.length MAX_COURSES) acc
  | [], _ => Nat.le_refl _
  | g :: t, acc => by
    simp only [List.foldl_cons]
    exact Nat.le_trans (Nat.le_add_right acc _) (slots_foldl_mono t _)

theorem slots_foldl_pos (g : SvgSubDiscGroup) (hne : g.entries ≠ []) :
    ∀ (t : List SvgSubDiscGroup) (acc : Nat), g ∈ t →
      0 < t.foldl (fun s x => s + min x.entries.length MAX_COURSES) acc
  | [], _, hg => absurd hg (List.not_mem_nil g)
  | g' :: t', acc, hg => by
    simp only [List.foldl_cons]
    rcases List.mem_cons.mp hg with rfl | hg'
    · have h1 : 1 ≤ min g.entries.length MAX_COURSES := by
        have h2 : 1 ≤ g.entries.length := by
          cases h : g.entries with
          | nil => exact absurd h hne
          | cons x xs => simp
        have h3 : (1:Nat) ≤ MAX_COURSES := by decide
        omega
      exact Nat.lt_of_lt_of_le (by omega) (slots_foldl_mono t' _)
    · exact slots_foldl_pos g hne t' _ hg'

theorem totalCourseSlots_pos {gs : List SvgSubDiscGroup} {g : SvgSubDiscGroup}
    (hg : g ∈ gs) (hne : g.entries ≠ []) : 0 < totalCourseSlots gs :=
  slots_foldl_pos g hne gs 0 hg

theorem effectiveMax_ge_two (gs : List SvgSubDiscGroup)
    (h : 0 < totalCourseSlots gs) : 2 ≤ effectiveMax gs := by
  unfold effectiveMax dynamicMaxCourses
  rw [if_pos h]
  refine le_min (by norm_num [MAX_COURSES]) (le_max_left _ _)

/-! ## Claim theorems -/

/-- **C1** (confirmed): Conservation — for every raw record sequence and
every filter selection, the sum of `question_count` over the aggregation
output `filteredData` equals the sum of `cnt` over exactly the input
records that survive the filter (a record survives when the exam-type
selection is empty or contains its type, and the promo selection is empty
or contains its year). -/
theorem C1_conservation (rawEntries : List GranularEntry)
    (selectedExamTypes : List (List Char)) (selectedPromos : List Int) :
    ((filteredData rawEntries selectedExamTypes selectedPromos).map
      (fun d => d.question_count)).sum =
      ((rawEntries.filter (survives selectedExamTypes selectedPromos)).map
        (fun e => e.cnt)).sum := by
  by_cases hre : rawEntries.isEmpty
  · have h0 : rawEntries = [] := List.isEmpty_iff.mp hre
    subst h0
    simp [filteredData]
  · unfold filteredData
    rw [if_neg hre]
    have hperm :=
      (List.perm_insertionSort coursLE
        (aggEntries rawEntries selectedExamTypes selectedPromos)).map
        (fun d : CoursEntry => d.question_count)
    rw [hperm.sum_eq]
    unfold aggEntries
    rw [List.map_map]
    have hcomp : ((fun d : CoursEntry => d.question_count) ∘
        fun p : List Char × AggState => toCours p.2) =
        (fun p : List Char × AggState => p.2.count) := rfl
    rw [hcomp]
    exact aggMap_countSum _

/-- **C2** (code_bug): the `"|||"`-delimited aggregation key merges the two
distinct triples `("a|||b","c","x")` and `("a","b|||c","x")` into a single
entry: with no filter restriction, the output entry carrying the triple
`("a|||b","c","x")` reports `question_count = 3`, although the sum of
`cnt` over the surviving occurrences of that exact triple is 1 — the
per-triple aggregation invariant fails on this input. -/
theorem C2_delimiter_collision :
    filteredData
        [⟨"a|||b".data, "c".data, "x".data, 2020, "E".data, 1⟩,
         ⟨"a".data, "b|||c".data, "x".data, 2020, "E".data, 2⟩] [] [] =
      [⟨"a|||b".data, "c".data, "x".data, 3, 1, [2020]⟩] ∧
    ((([(⟨"a|||b".data, "c".data, "x".data, 2020, "E".data, 1⟩ : GranularEntry),
        ⟨"a".data, "b|||c".data, "x".data, 2020, "E".data, 2⟩].filter
          (survives [] [])).filter (fun e =>
            decide (e.m = "a|||b".data ∧ e.sd = "c".data ∧ e.c = "x".data))).map
      (fun e => e.cnt)).sum = 1 :=
  ⟨by decide, by decide⟩

/-- **C4** (confirmed): escaping — `esc` replaces every occurrence of the
five reserved characters by its entity equivalent, unconditionally and
exactly once per original character (it equals the concatenation of
per-character entity images); its output contains no occurrence of `<`,
`>`, `"` or `'`; and every user-derived payload embedded in the rendered
document (module name, year ranges, sub-discipline names, truncated topic
labels) is exactly the `esc` image of the corresponding raw text. -/
theorem C4_escaping :
    (∀ s : List Char, esc s = (s.map entityOf).flatten) ∧
    (∀ s : List Char,
      (esc s).filter (fun c => c == '<' || c == '>' || c == '"' || c == '\'') = []) ∧
    (∀ opts : SvgExportOptions, userPayloads opts = (rawUserTexts opts).map esc) :=
  ⟨esc_eq_flatten, esc_no_reserved, userPayloads_eq⟩

/-- **C9** (confirmed): truncation — a topic label of at most 50 characters
is passed to the embedding stage unchanged; a longer label is replaced by a
proper prefix of the original (its first 49 characters) with an ellipsis
appended, and the truncated label's length never exceeds the 50-character
budget. -/
theorem C9_truncation (t : List Char) :
    (t.length ≤ 50 → truncateText t 50 = t) ∧
    (50 < t.length →
      truncateText t 50 = t.take 49 ++ ['…'] ∧
      (∃ rest, rest ≠ [] ∧ t = t.take 49 ++ rest) ∧
      (truncateText t 50).length = 50) := by
  constructor
  · intro h
    unfold truncateText
    rw [if_pos h]
  · intro h
    have hne : ¬ t.length ≤ 50 := by omega
    refine ⟨?_, ?_, ?_⟩
    · unfold truncateText
      rw [if_neg hne]
    · refine ⟨t.drop 49, ?_, (List.take_append_drop 49 t).symm⟩
      intro hc
      have hlen := congrArg List.length hc
      simp only [List.length_drop, List.length_nil] at hlen
      omega
    · unfold truncateText
      rw [if_neg hne]
      simp only [List.length_append, List.length_take, List.length_cons, List.length_nil]
      omega

/-- Witness for C9: applies the theorem at a short label (kept verbatim)
and at a 60-character label (truncated to 49 characters plus ellipsis). -/
theorem C9_truncation_witness :
    (("ab".data.length ≤ 50) ∧ truncateText "ab".data 50 = "ab".data) ∧
    ((50 < (List.replicate 60 'a').length) ∧
      (truncateText (List.replicate 60 'a') 50 = (List.replicate 60 'a').take 49 ++ ['…'] ∧
        (∃ rest, rest ≠ [] ∧
          List.replicate 60 'a' = (List.replicate 60 'a').take 49 ++ rest) ∧
        (truncateText (List.replicate 60 'a') 50).length = 50)) :=
  ⟨⟨by decide, (C9_truncation "ab".data).1 (by decide)⟩,
   ⟨by decide, (C9_truncation (List.replicate 60 'a')).2 (by decide)⟩⟩

/-- **C6** (confirmed): subgroup ordering — both in the page grouping and in
the SVG data builder, sub-discipline blocks are ordered by the fixed
priority list: listed sub-disciplines by list index ascending, unlisted
ones after all listed ones and lexicographically among themselves. -/
theorem C6_subgroup_order (rawEntries : List GranularEntry)
    (selectedExamTypes : List (List Char)) (selectedPromos : List Int)
    (selectedModule : List Char) (data : List CoursEntry) (examYearsRange : List Char)
    (totalExamYears : Nat) (modName : List Char) (allowedSubDiscs : List (List Char)) :
    (groupedBySubDisc rawEntries selectedExamTypes selectedPromos selectedModule).Pairwise
      (fun p q => specSubgroupOrder p.1 q.1) ∧
    ((buildSvgDataForModule data examYearsRange totalExamYears modName
        allowedSubDiscs).subDiscGroups).Pairwise
      (fun g h => specSubgroupOrder g.sub_discipline h.sub_discipline) := by
  constructor
  · exact sortGroups_pairwise_spec _
  · exact (sortGroups_pairwise_spec _).map _ (fun p q h => h)

/-- Witness for C6: the subgroup-order property instantiated on a concrete
one-record data set. -/
theorem C6_subgroup_order_witness :
    List.Pairwise (fun p q => specSubgroupOrder p.1 q.1)
      (groupedBySubDisc [⟨"M".data, "Anatomie".data, "ca".data, 2021, "E".data, 2⟩]
        [] [] "M".data) :=
  (C6_subgroup_order [⟨"M".data, "Anatomie".data, "ca".data, 2021, "E".data, 2⟩]
    [] [] "M".data [] [] 0 [] []).1

end QcmMed

namespace QcmMed

/-- **C3** (counterexample): with four supplied blocks of which one is
empty, the source divides the row space by 4 — the count of ALL blocks —
and displays 4 rows per non-empty block, while the claim's formula (with
`numBlocks` = count of non-empty blocks = 3) yields a cap of 5. -/
theorem C3_layout_cap_counterexample :
    (let gs : List SvgSubDiscGroup :=
      [⟨"A".data, []⟩,
       ⟨"B".data, [⟨"t1".data, 9⟩, ⟨"t2".data, 8⟩, ⟨"t3".data, 7⟩, ⟨"t4".data, 6⟩,
         ⟨"t5".data, 5⟩, ⟨"t6".data, 4⟩]⟩,
       ⟨"C".data, [⟨"u1".data, 9⟩, ⟨"u2".data, 8⟩, ⟨"u3".data, 7⟩, ⟨"u4".data, 6⟩,
         ⟨"u5".data, 5⟩, ⟨"u6".data, 4⟩]⟩,
       ⟨"D".data, [⟨"v1".data, 9⟩, ⟨"v2".data, 8⟩, ⟨"v3".data, 7⟩, ⟨"v4".data, 6⟩,
         ⟨"v5".data, 5⟩, ⟨"v6".data, 4⟩]⟩];
     effectiveMax gs = 4 ∧ specLayoutCap gs = 5 ∧
       (renderBody gs).1.map (fun gr => gr.rows.length) = [0, 4, 4, 4]) ∧
    (4 : Int) ≠ 5 := by
  constructor
  · refine ⟨by decide, by decide, by decide⟩
  · decide

/-- **C3** (amended): in the source, `numGroups` counts ALL supplied blocks,
empty ones included. When at least one block has a course slot, the cap is
`floor(spaceForRows / R / numBlocks)` clamped to `[2, 5]`, and it equals 2
whenever `spaceForRows ≤ 0`; when no block has entries the cap is `K = 5`;
the same cap applies uniformly to every block (each block shows
`min cap |entries|` rows); and an empty block list renders an empty body
with no division by zero. -/
theorem C3_layout_cap_amended (gs : List SvgSubDiscGroup) (y : Nat) (g : SvgSubDiscGroup) :
    (0 < totalCourseSlots gs →
      effectiveMax gs =
        min 5 (max 2 (Int.fdiv
          ((840 : Int) - (gs.length : Int) * 32 - max 0 ((gs.length : Int) - 1) * 20)
          (36 * (gs.length : Int)))) ∧
      (spaceForCourses gs ≤ 0 → effectiveMax gs = 2)) ∧
    (totalCourseSlots gs = 0 → effectiveMax gs = 5) ∧
    ((groupRender gs y g).rows.length = min (effectiveMax gs).toNat g.entries.length) ∧
    (gs = [] → renderBody gs = ([], headerEndY)) := by
  have hsp : spaceForCourses gs =
      (840 : Int) - (gs.length : Int) * 32 - max 0 ((gs.length : Int) - 1) * 20 := by
    unfold spaceForCourses availableHeight totalGroupHeaders totalGaps numGroups
    norm_num [H, headerEndY, footerReserve, PAD, groupHeaderH, groupGap]
  have hrd : (courseRowH : Int) * (numGroups gs : Int) = 36 * (gs.length : Int) := by
    norm_num [courseRowH, numGroups]
  refine ⟨?_, ?_, groupRender_rows_length gs y g, ?_⟩
  · intro h
    constructor
    · unfold effectiveMax dynamicMaxCourses
      rw [if_pos h, hsp, hrd]
      norm_num [MAX_COURSES]
    · intro hsp0
      have hlen : 0 < gs.length := by
        cases gs with
        | nil => simp [totalCourseSlots, upsertFold] at h
        | cons g' t => simp
      have hpos : (0 : Int) < (courseRowH : Int) * (numGroups gs : Int) := by
        rw [hrd]
        omega
      have hfd : Int.fdiv (spaceForCourses gs) ((courseRowH : Int) * (numGroups gs : Int)) ≤ 0 := by
        rw [Int.fdiv_eq_ediv _ (le_of_lt hpos)]
        calc spaceForCourses gs / ((courseRowH : Int) * (numGroups gs : Int))
            ≤ 0 / ((courseRowH : Int) * (numGroups gs : Int)) :=
              Int.ediv_le_ediv hpos hsp0
          _ = 0 := Int.zero_ediv _
      unfold effectiveMax dynamicMaxCourses
      rw [if_pos h]
      rw [max_eq_left (by omega)]
      decide
  · intro h0
    unfold effectiveMax dynamicMaxCourses
    rw [if_neg (by omega)]
    decide
  · intro h0
    subst h0
    rfl

/-- Witness for C3 (amended): applies the cap formula at a concrete
one-block input and evaluates it to 5. -/
theorem C3_layout_cap_amended_witness :
    0 < totalCourseSlots [⟨"A".data, [⟨"t".data, 1⟩]⟩] ∧
    effectiveMax [⟨"A".data, [⟨"t".data, 1⟩]⟩] = 5 :=
  ⟨by decide, by
    have h := (C3_layout_cap_amended [⟨"A".data, [⟨"t".data, 1⟩]⟩] 180
      ⟨"A".data, []⟩).1 (by decide)
    rw [h.1]
    decide⟩

/-- **C7** (counterexample): the renderer does NOT skip a zero-entry block —
a supplied empty block produces a rendered group (its header, with zero
rows) and consumes vertical space (`groupHeaderH`), contradicting the claim
that such a block contributes no rendered output and no vertical space. -/
theorem C7_empty_block_counterexample :
    (renderBody [⟨"X".data, []⟩]).1.map (fun gr => (gr.sub_discipline, gr.rows.length)) =
      [("X".data, 0)] ∧
    (renderBody [⟨"X".data, []⟩]).2 = headerEndY + groupHeaderH ∧
    headerEndY + groupHeaderH ≠ headerEndY := by
  refine ⟨by decide, by decide, by decide⟩

/-- **C7** (amended): the renderer renders every supplied block, including
empty ones; however, the export pipeline never supplies an empty block —
every sub-discipline group built by `buildSvgDataForModule` has a non-empty
entry list, and consequently every block rendered from its output has at
least one row (a block is never rendered with zero rows in a pipeline
invocation). -/
theorem C7_pipeline_blocks_nonempty (data : List CoursEntry) (yr : List Char)
    (ty : Nat) (modName : List Char) (allowed : List (List Char)) :
    (∀ g ∈ (buildSvgDataForModule data yr ty modName allowed).subDiscGroups,
      g.entries ≠ []) ∧
    (∀ gr ∈ (renderBody (buildSvgDataForModule data yr ty modName allowed).subDiscGroups).1,
      gr.rows ≠ []) := by
  have part1 : ∀ g ∈ (buildSvgDataForModule data yr ty modName allowed).subDiscGroups,
      g.entries ≠ [] := by
    intro g hg
    unfold buildSvgDataForModule at hg
    simp only [List.mem_map, List.mem_insertionSort] at hg
    obtain ⟨p, hp, rfl⟩ := hg
    obtain ⟨_, hne⟩ := groupsOf_val _ p hp
    simp only []
    intro hc
    exact hne (List.map_eq_nil_iff.mp hc)
  refine ⟨part1, ?_⟩
  intro gr hgr
  obtain ⟨g, hgmem, y', rfl⟩ := renderBodyAux_mem _ _ _ gr hgr
  have hglen : g.entries ≠ [] := part1 g hgmem
  have hlen : 1 ≤ g.entries.length := by
    cases h : g.entries with
    | nil => exact absurd h hglen
    | cons x xs => simp
  have hslots : 0 < totalCourseSlots
      (buildSvgDataForModule data yr ty modName allowed).subDiscGroups :=
    totalCourseSlots_pos hgmem hglen
  have heff := effectiveMax_ge_two _ hslots
  intro hc
  have hlr := congrArg List.length hc
  rw [groupRender_rows_length] at hlr
  simp only [List.length_nil] at hlr
  omega

/-- Witness for C7 (amended): a concrete pipeline input whose single built
block is non-empty. -/
theorem C7_pipeline_blocks_nonempty_witness :
    (⟨"Anatomie".data, [⟨"t".data, 3⟩]⟩ : SvgSubDiscGroup) ∈
      (buildSvgDataForModule [⟨"M".data, "Anatomie".data, "t".data, 3, 1, [2020]⟩]
        [] 0 "M".data []).subDiscGroups ∧
    (⟨"Anatomie".data, [⟨"t".data, 3⟩]⟩ : SvgSubDiscGroup).entries ≠ [] :=
  ⟨by decide,
   (C7_pipeline_blocks_nonempty [⟨"M".data, "Anatomie".data, "t".data, 3, 1, [2020]⟩]
     [] 0 "M".data []).1 ⟨"Anatomie".data, [⟨"t".data, 3⟩]⟩ (by decide)⟩

theorem blockMaxQ_cons (e : SvgCourseEntry) (t : List SvgCourseEntry) :
    blockMaxQ (e :: t) = if e.question_count = 0 then 1 else e.question_count := rfl

/-- **C8** (confirmed): bar widths — in a rendered block whose entries are
ranked by `question_count` descending, with `localMax` the count of the
first visible entry: the denominator actually used is never zero; when
`localMax ≠ 0` every row's bar percentage is
`max 8 (count / localMax * 100)`; and when `localMax = 0` every row's bar
percentage degrades to `MIN_BAR_PCT = 8` with no division by zero. -/
theorem C8_bar_widths (gs : List SvgSubDiscGroup) (y : Nat) (g : SvgSubDiscGroup)
    (hsorted : g.entries.Pairwise (fun a b => b.question_count ≤ a.question_count))
    (e : SvgCourseEntry) (t : List SvgCourseEntry)
    (hds : g.entries.take (effectiveMax gs).toNat = e :: t) :
    blockMaxQ (g.entries.take (effectiveMax gs).toNat) ≠ 0 ∧
    (e.question_count ≠ 0 →
      ∀ r ∈ (groupRender gs y g).rows,
        r.barPct = max 8 ((r.count : ℚ) / (e.question_count : ℚ) * 100)) ∧
    (e.question_count = 0 → ∀ r ∈ (groupRender gs y g).rows, r.barPct = 8) := by
  have hmaxne : blockMaxQ (g.entries.take (effectiveMax gs).toNat) ≠ 0 := by
    rw [hds, blockMaxQ_cons]
    split_ifs with h
    · omega
    · exact h
  refine ⟨hmaxne, ?_, ?_⟩
  · intro hqe r hr
    unfold groupRender at hr
    simp only [List.mem_map] at hr
    obtain ⟨p, _, rfl⟩ := hr
    simp only []
    rw [hds, blockMaxQ_cons, if_neg hqe]
    rfl
  · intro hqe r hr
    unfold groupRender at hr
    simp only [List.mem_map] at hr
    obtain ⟨p, hp, rfl⟩ := hr
    have hmem : p.2 ∈ g.entries.take (effectiveMax gs).toNat := by
      have h1 := List.mem_map_of_mem Prod.snd hp
      rwa [List.enum_map_snd] at h1
    have hsorted' : (g.entries.take (effectiveMax gs).toNat).Pairwise
        (fun a b => b.question_count ≤ a.question_count) :=
      hsorted.sublist (List.take_sublist _ _)
    have hzero : p.2.question_count = 0 := by
      rw [hds] at hmem hsorted'
      rcases List.mem_cons.mp hmem with heq | hm
      · rw [heq]; exact hqe
      · have := (List.pairwise_cons.mp hsorted').1 p.2 hm
        omega
    simp only []
    rw [hds, blockMaxQ_cons, if_pos hqe]
    show rowBarPct 1 p.2.question_count = 8
    rw [hzero]
    unfold rowBarPct
    rw [show ((0 : Nat) : ℚ) / ((1 : Nat) : ℚ) * 100 = 0 by norm_num]
    exact max_eq_left (by norm_num)

/-- Witness for C8: a concrete two-entry block, ranked descending, with the
bar formula evaluated through the theorem. -/
theorem C8_bar_widths_witness :
    (List.Pairwise (fun a b : SvgCourseEntry => b.question_count ≤ a.question_count)
      [⟨"t1".data, 4⟩, ⟨"t2".data, 1⟩]) ∧
    (([⟨"t1".data, 4⟩, ⟨"t2".data, 1⟩] :
        List SvgCourseEntry).take
          (effectiveMax [⟨"Anatomie".data, [⟨"t1".data, 4⟩, ⟨"t2".data, 1⟩]⟩]).toNat =
      (⟨"t1".data, 4⟩ : SvgCourseEntry) :: [⟨"t2".data, 1⟩]) ∧
    ((⟨"t1".data, 4⟩ : SvgCourseEntry).question_count ≠ 0 →
      ∀ r ∈ (groupRender [⟨"Anatomie".data, [⟨"t1".data, 4⟩, ⟨"t2".data, 1⟩]⟩] 180
          ⟨"Anatomie".data, [⟨"t1".data, 4⟩, ⟨"t2".data, 1⟩]⟩).rows,
        r.barPct = max 8 ((r.count : ℚ) /
          (((⟨"t1".data, 4⟩ : SvgCourseEntry).question_count : ℚ)) * 100)) :=
  ⟨by decide, by decide,
   (C8_bar_widths [⟨"Anatomie".data, [⟨"t1".data, 4⟩, ⟨"t2".data, 1⟩]⟩] 180
     ⟨"Anatomie".data, [⟨"t1".data, 4⟩, ⟨"t2".data, 1⟩]⟩ (by decide)
     ⟨"t1".data, 4⟩ [⟨"t2".data, 1⟩] (by decide)).2.1⟩

end QcmMed

namespace QcmMed

/-- **C5** (confirmed): ranking tie stability — within each sub-discipline
group of the selected module, entries are ordered by `question_count`
descending, and entries with equal counts keep their encounter order from
the aggregation stage (two tied entries appear in the group in the same
relative order as in `aggEntries`). -/
theorem C5_rank_tie_stability (rawEntries : List GranularEntry)
    (selectedExamTypes : List (List Char)) (selectedPromos : List Int)
    (selectedModule : List Char) (p : List Char × List CoursEntry)
    (hp : p ∈ groupedBySubDisc rawEntries selectedExamTypes selectedPromos selectedModule) :
    p.2.Pairwise (fun a b =>
      b.question_count ≤ a.question_count ∧
      (a.question_count = b.question_count →
        [a, b] <+ aggEntries rawEntries selectedExamTypes selectedPromos)) := by
  have hp' : p ∈ groupsOf
      (filteredByModule rawEntries selectedExamTypes selectedPromos selectedModule) := by
    unfold groupedBySubDisc at hp
    rwa [List.mem_insertionSort] at hp
  obtain ⟨hfil, _⟩ := groupsOf_val _ p hp'
  apply List.pairwise_iff_forall_sublist.mpr
  intro a b hsub
  have hsubf : [a, b] <+
      filteredByModule rawEntries selectedExamTypes selectedPromos selectedModule := by
    rw [hfil] at hsub
    exact hsub.trans (List.filter_sublist _)
  have hfbm : filteredByModule rawEntries selectedExamTypes selectedPromos selectedModule <+
      filteredData rawEntries selectedExamTypes selectedPromos :=
    List.filter_sublist _
  have hsubd : [a, b] <+ filteredData rawEntries selectedExamTypes selectedPromos :=
    hsubf.trans hfbm
  have ha : a ∈ p.2 := hsub.subset (by simp)
  have hb : b ∈ p.2 := hsub.subset (by simp)
  have hsd : a.sub_discipline = b.sub_discipline := by
    rw [hfil] at ha hb
    have h1 := of_decide_eq_true (List.mem_filter.mp ha).2
    have h2 := of_decide_eq_true (List.mem_filter.mp hb).2
    rw [h1, h2]
  have hmod : a.module_name = b.module_name := by
    have ha1 : a ∈ (filteredData rawEntries selectedExamTypes selectedPromos).filter
        (fun d => d.module_name == selectedModule) := by
      rw [hfil] at ha
      exact (List.mem_filter.mp ha).1
    have hb1 : b ∈ (filteredData rawEntries selectedExamTypes selectedPromos).filter
        (fun d => d.module_name == selectedModule) := by
      rw [hfil] at hb
      exact (List.mem_filter.mp hb).1
    have h1 : a.module_name = selectedModule := by
      have := (List.mem_filter.mp ha1).2
      rwa [beq_iff_eq] at this
    have h2 : b.module_name = selectedModule := by
      have := (List.mem_filter.mp hb1).2
      rwa [beq_iff_eq] at this
    rw [h1, h2]
  by_cases hre : rawEntries.isEmpty
  · rw [show filteredData rawEntries selectedExamTypes selectedPromos = [] from by
      unfold filteredData; rw [if_pos hre]] at hsubd
    simp at hsubd
  · have hfd : filteredData rawEntries selectedExamTypes selectedPromos =
        List.insertionSort coursLE
          (aggEntries rawEntries selectedExamTypes selectedPromos) := by
      unfold filteredData
      rw [if_neg hre]
    rw [hfd] at hsubd
    haveI : IsTotal CoursEntry coursLE := ⟨coursLE_total⟩
    haveI : IsTrans CoursEntry coursLE := ⟨coursLE_trans⟩
    have hpw : (List.insertionSort coursLE
        (aggEntries rawEntries selectedExamTypes selectedPromos)).Pairwise coursLE :=
      List.sorted_insertionSort coursLE _
    have hle : coursLE a b := List.pairwise_iff_forall_sublist.mp hpw hsubd
    refine ⟨coursLE_count_le hmod hsd hle, ?_⟩
    intro hq
    have hcmp : coursCompare a b = .eq := coursCompare_eq_iff.mpr ⟨hmod, hsd, hq⟩
    obtain ⟨h1, h2⟩ := coursLE_of_compare_eq hcmp
    exact sublist_orig_of_tie coursLE (aggEntries_nodup _ _ _) hsubd h1 h2

/-- Witness for C5: the spec's scenario — counts [10, 10, 5] encountered in
order A, B, C come out of the pipeline as [A, B, C], and the theorem's
ordering and stability facts hold for that concrete group. -/
theorem C5_rank_tie_stability_witness :
    ("Anatomie".data,
      [(⟨"M".data, "Anatomie".data, "ca".data, 10, 1, [2021]⟩ : CoursEntry),
       ⟨"M".data, "Anatomie".data, "cb".data, 10, 1, [2021]⟩,
       ⟨"M".data, "Anatomie".data, "cc".data, 5, 1, [2021]⟩]) ∈
      groupedBySubDisc
        [⟨"M".data, "Anatomie".data, "ca".data, 2021, "E".data, 10⟩,
         ⟨"M".data, "Anatomie".data, "cb".data, 2021, "E".data, 10⟩,
         ⟨"M".data, "Anatomie".data, "cc".data, 2021, "E".data, 5⟩] [] [] "M".data ∧
    List.Pairwise (fun a b : CoursEntry =>
      b.question_count ≤ a.question_count ∧
      (a.question_count = b.question_count →
        [a, b] <+ aggEntries
          [⟨"M".data, "Anatomie".data, "ca".data, 2021, "E".data, 10⟩,
           ⟨"M".data, "Anatomie".data, "cb".data, 2021, "E".data, 10⟩,
           ⟨"M".data, "Anatomie".data, "cc".data, 2021, "E".data, 5⟩] [] []))
      [⟨"M".data, "Anatomie".data, "ca".data, 10, 1, [2021]⟩,
       ⟨"M".data, "Anatomie".data, "cb".data, 10, 1, [2021]⟩,
       ⟨"M".data, "Anatomie".data, "cc".data, 5, 1, [2021]⟩] :=
  ⟨by decide, by
    have h := C5_rank_tie_stability
      [⟨"M".data, "Anatomie".data, "ca".data, 2021, "E".data, 10⟩,
       ⟨"M".data, "Anatomie".data, "cb".data, 2021, "E".data, 10⟩,
       ⟨"M".data, "Anatomie".data, "cc".data, 2021, "E".data, 5⟩] [] [] "M".data
      ("Anatomie".data,
        [⟨"M".data, "Anatomie".data, "ca".data, 10, 1, [2021]⟩,
         ⟨"M".data, "Anatomie".data, "cb".data, 10, 1, [2021]⟩,
         ⟨"M".data, "Anatomie".data, "cc".data, 5, 1, [2021]⟩]) (by decide)
    exact h⟩

/-- **C10** (confirmed): implicit invariants — (i) the aggregation output
`filteredData` is always fully sorted by module name ascending, then
sub-discipline ascending, then `question_count` descending, and entries
equal on all three keys appear in the order of the first occurrence of
their triple in the filtered record stream; (ii) the renderer escapes the
already-truncated topic label, so the embedded label is the entity-image of
the raw truncated characters (the budget counts raw characters and
truncation can never split an escape entity). -/
theorem C10_agg_order_and_escape_after_truncate (rawEntries : List GranularEntry)
    (selectedExamTypes : List (List Char)) (selectedPromos : List Int) :
    ((filteredData rawEntries selectedExamTypes selectedPromos).Pairwise (fun a b =>
      specSortedLE a b ∧
      (a.module_name = b.module_name → a.sub_discipline = b.sub_discipline →
        a.question_count = b.question_count →
        firstTripleIdx (rawEntries.filter (survives selectedExamTypes selectedPromos)) a <
          firstTripleIdx (rawEntries.filter (survives selectedExamTypes selectedPromos)) b))) ∧
    (∀ s : List Char,
      rowLabel s = ((truncateText s 50).map entityOf).flatten ∧
      (s.length ≤ 50 → rowLabel s = (s.map entityOf).flatten)) := by
  constructor
  · by_cases hre : rawEntries.isEmpty
    · rw [show filteredData rawEntries selectedExamTypes selectedPromos = [] from by
        unfold filteredData; rw [if_pos hre]]
      exact List.Pairwise.nil
    · have hfd : filteredData rawEntries selectedExamTypes selectedPromos =
          List.insertionSort coursLE
            (aggEntries rawEntries selectedExamTypes selectedPromos) := by
        unfold filteredData
        rw [if_neg hre]
      rw [hfd]
      haveI : IsTotal CoursEntry coursLE := ⟨coursLE_total⟩
      haveI : IsTrans CoursEntry coursLE := ⟨coursLE_trans⟩
      have hpw : (List.insertionSort coursLE
          (aggEntries rawEntries selectedExamTypes selectedPromos)).Pairwise coursLE :=
        List.sorted_insertionSort coursLE _
      apply List.pairwise_iff_forall_sublist.mpr
      intro a b hsub
      have hle : coursLE a b := List.pairwise_iff_forall_sublist.mp hpw hsub
      refine ⟨coursLE_iff_spec.mp hle, ?_⟩
      intro hm hs hq
      have hcmp : coursCompare a b = .eq := coursCompare_eq_iff.mpr ⟨hm, hs, hq⟩
      obtain ⟨h1, h2⟩ := coursLE_of_compare_eq hcmp
      have hsubAgg : [a, b] <+ aggEntries rawEntries selectedExamTypes selectedPromos :=
        sublist_orig_of_tie coursLE (aggEntries_nodup _ _ _) hsub h1 h2
      exact List.pairwise_iff_forall_sublist.mp
        (aggEntries_pairwise_firstTripleIdx rawEntries selectedExamTypes selectedPromos)
        hsubAgg
  · intro s
    constructor
    · unfold rowLabel
      exact esc_eq_flatten _
    · intro h
      unfold rowLabel
      rw [show truncateText s 50 = s from by unfold truncateText; rw [if_pos h]]
      exact esc_eq_flatten s

/-- Witness for C10: the escape-after-truncate equation applied to a
concrete short label. -/
theorem C10_agg_order_and_escape_after_truncate_witness :
    (('<' :: List.replicate 10 'b').length ≤ 50) ∧
    rowLabel ('<' :: List.replicate 10 'b') =
      (('<' :: List.replicate 10 'b').map entityOf).flatten :=
  ⟨by decide,
   ((C10_agg_order_and_escape_after_truncate [] [] []).2
     ('<' :: List.replicate 10 'b')).2 (by decide)⟩

end QcmMed
